import Mathlib

/-!
Verification of the book-scraper subsystem of the `tech-challenge-book-api`
repository: a shallow embedding, in Lean 4, of the pure logic of
`src/scripts/scrapper_lib.py` and `src/routes/public/scrapper.py`, together
with theorems settling the specification claims about it.

Modelling conventions.

* Python strings are modelled as `List Char` (`Chars`); only the ASCII
  behaviour of `str.lower` / `str.strip` / the `re` module and of Unicode
  digit classes is modelled, which covers every string the claims quantify
  over.
* HTML documents (BeautifulSoup values) are modelled structurally: a page is
  a record holding exactly the fields the scraper reads from it (heading
  text, product cards, the `li.next a` href, the availability paragraph, the
  detail image src).
* The network is an oracle (`Site`): a function from URL to the page the
  scraper would obtain, with `none` meaning the corresponding
  `load_page` / `load_product_page_with_cache` call raises. A
  `requests` session created by `create_session` only has connection
  adapters mounted for the prefixes `http://` and `https://`
  (case-insensitively), so a well-formed oracle only answers on such URLs
  (`fetchableUrl`).
* The `while True` page loop of `get_books` is given explicit fuel; running
  out of fuel is reported as a distinguished outcome (`CrawlOutcome.fuelOut`)
  that is an artefact of the embedding, distinct from a Python exception
  (`CrawlOutcome.exn`).
* `urllib.parse.urljoin` / `urldefrag` / `urlsplit` / `urlunsplit` are
  translated from CPython's `urllib/parse.py` with one simplification,
  recorded at the definitions: path parameters (`;`) are kept inside the
  path component rather than split off, and the `ValueError`s raised for
  malformed bracketed hosts are not modelled.
* Python `float(...)` is modelled on the plain finite decimal grammar
  (optional sign, digits, optional fraction, optional exponent) with values
  in `ℚ`; the `inf` / `nan` / underscore-separator spellings are treated as
  unparseable, which no claim depends on.
-/

namespace BookScraper

/-- Python strings, modelled as lists of characters. -/
abbrev Chars := List Char

/-- The six ASCII whitespace characters matched by Python `str.strip()` and
by the regex class `\s` (ASCII fragment). -/
def isSpaceP (c : Char) : Bool :=
  c = ' ' || c = '\t' || c = '\n' || c = '\r' || c = '\x0b' || c = '\x0c'

/-- Python `str.strip()`: remove leading and trailing whitespace. -/
def pyStrip (l : Chars) : Chars :=
  ((l.dropWhile isSpaceP).reverse.dropWhile isSpaceP).reverse

/-- Python `str.lower()` (ASCII fragment). -/
def lowerChars (l : Chars) : Chars := l.map Char.toLower

/-- Python substring test `needle in hay`. -/
def containsSub (hay needle : Chars) : Bool :=
  match hay with
  | [] => needle.isEmpty
  | _ :: t => needle.isPrefixOf hay || containsSub t needle

/-- Numeric value of a digit string, as computed by Python `int(...)`. -/
def natOfDigits (ds : Chars) : Nat :=
  ds.foldl (fun a c => a * 10 + (c.toNat - '0'.toNat)) 0

/-- Case-insensitive literal matcher: if `l` starts with the (lowercase)
pattern `pat` up to `Char.toLower`, return the remainder of `l`. -/
def stripCI (pat l : Chars) : Option Chars :=
  match pat, l with
  | [], rest => some rest
  | _ :: _, [] => none
  | p :: ps, c :: cs => if c.toLower = p then stripCI ps cs else none

/-- One attempt of the regex `\((\d+)\s*available\)` (flag `re.I`) anchored
at the head of `l`, returning the captured count. The digit run and the
whitespace run are maximal, exactly as the greedy regex engine computes
them (no shorter run can be followed by the forced continuation). -/
def matchParenAt (l : Chars) : Option Nat :=
  match l with
  | c :: rest =>
    if c = '(' then
      let ds := rest.takeWhile Char.isDigit
      if ds.isEmpty then none
      else
        let r2 := (rest.dropWhile Char.isDigit).dropWhile isSpaceP
        match stripCI ("available".data) r2 with
        | some (')' :: _) => some (natOfDigits ds)
        | _ => none
    else none
  | [] => none

/-- `re.search(r"\((\d+)\s*available\)", text, re.I)`: leftmost match. -/
def searchParen (l : Chars) : Option Nat :=
  match l with
  | [] => none
  | _ :: t =>
    match matchParenAt l with
    | some n => some n
    | none => searchParen t

/-- `re.search(r"(\d+)", text)`: the first digit run, maximal, as a number. -/
def searchDigits (l : Chars) : Option Nat :=
  match l with
  | [] => none
  | c :: t =>
    if c.isDigit then some (natOfDigits (l.takeWhile Char.isDigit))
    else searchDigits t

/-- `scrapper_lib.parse_availability_text`: interpret a raw availability
string, e.g. `"In stock (22 available)"`, as an (in-stock, count) pair. -/
def parse_availability_text (text : Chars) : Bool × Option Nat :=
  let t := pyStrip text
  let in_stock := containsSub (lowerChars t) ("in stock".data)
  match searchParen t with
  | some n => (true, some n)
  | none =>
    match searchDigits t with
    | some n => (in_stock, some n)
    | none => (in_stock, none)

/-- Exponent part of the Python `float()` grammar: the remainder `r2`
after the mantissa must be empty or `(e|E) [sign] digits` with nothing
left over. -/
def pyFloatExp (mant : ℚ) (r2 : Chars) : Option ℚ :=
  if r2 = [] then some mant
  else if r2.head? = some 'e' ∨ r2.head? = some 'E' then
    let r3 := r2.tail
    let esgn : Int := if r3.head? = some '-' then -1 else 1
    let r4 : Chars :=
      if r3.head? = some '-' ∨ r3.head? = some '+' then r3.tail else r3
    let expDs := r4.takeWhile Char.isDigit
    if expDs.isEmpty ∨ r4.dropWhile Char.isDigit ≠ [] then none
    else some (mant * (10 : ℚ) ^ (esgn * (natOfDigits expDs : Int)))
  else none

/-- Magnitude part of the Python `float()` grammar, after the optional
leading sign: `digits [. digits] [(e|E) [sign] digits]`, requiring at
least one mantissa digit and nothing left over. -/
def pyFloatMag (r0 : Chars) : Option ℚ :=
  let intDs := r0.takeWhile Char.isDigit
  let r1 := r0.dropWhile Char.isDigit
  let fracDs : Chars :=
    if r1.head? = some '.' then r1.tail.takeWhile Char.isDigit else []
  let r2 : Chars :=
    if r1.head? = some '.' then r1.tail.dropWhile Char.isDigit else r1
  if intDs.isEmpty && fracDs.isEmpty then none
  else
    pyFloatExp ((natOfDigits intDs : ℚ) +
      (natOfDigits fracDs : ℚ) / ((10 : ℚ) ^ fracDs.length)) r2

/-- Python `float(txt)` on the finite decimal grammar
`[ws] [sign] (digits [. digits] | . digits) [(e|E) [sign] digits] [ws]`,
valued in `ℚ`. The `inf`/`nan` spellings and PEP-515 underscores are
modelled as unparseable (see the module docstring). -/
def pyFloat (l : Chars) : Option ℚ :=
  let t := pyStrip l
  let sgn : ℚ := if t.head? = some '-' then -1 else 1
  let r0 : Chars :=
    if t.head? = some '-' ∨ t.head? = some '+' then t.tail else t
  (pyFloatMag r0).map (fun m => sgn * m)

/-- `scrapper_lib.parse_price`: strip the currency sign `£` and the
encoding artefact `Â`, strip whitespace, and convert with `float(...)`;
the bare `except` clause means every failure becomes `None`. -/
def parse_price (text : Chars) : Option ℚ :=
  let txt := pyStrip ((text.filter (· ≠ '£')).filter (· ≠ 'Â'))
  pyFloat txt

/-! ## URL resolution (`urllib.parse`)

Translated from CPython `Lib/urllib/parse.py` (`urlsplit`, `urlunsplit`,
`urljoin`, `urldefrag`). Path parameters (`;`) are not split off the path —
`urlparse` is modelled as `urlsplit` — and the `ValueError` raised for
malformed bracketed hosts is not modelled; neither affects any claim. -/

/-- The characters admitted in a URL scheme (`scheme_chars`). -/
def schemeChar (c : Char) : Bool :=
  c.isAlpha || c.isDigit || c = '+' || c = '-' || c = '.'

/-- WHATWG sanitisation performed by `urlsplit`: strip leading/trailing C0
control characters and spaces, then remove every tab, CR and LF. -/
def cleanUrl (l : Chars) : Chars :=
  (((l.dropWhile (fun c => c ≤ ' ')).reverse.dropWhile
      (fun c => c ≤ ' ')).reverse).filter
    (fun c => c ≠ '\t' && c ≠ '\r' && c ≠ '\n')

/-- Split a list at the first occurrence of `sep`, if any. -/
def splitFirst (sep : Char) (l : Chars) : Option (Chars × Chars) :=
  match l with
  | [] => none
  | c :: t =>
    if c = sep then some ([], t)
    else (splitFirst sep t).map (fun p => (c :: p.1, p.2))

/-- Python `l.split(sep, 1)` as used by `urlsplit` on `#` and `?`: the
part before the first separator and the part after it (everything, and
empty, when the separator is absent). -/
def splitTail (sep : Char) (l : Chars) : Chars × Chars :=
  match splitFirst sep l with
  | some (a, b) => (a, b)
  | none => (l, [])

/-- The five components returned by `urlsplit`. -/
structure UrlParts where
  scheme : Chars
  netloc : Chars
  path : Chars
  query : Chars
  fragment : Chars
deriving DecidableEq, Repr

/-- Characters ending the netloc component (`_splitnetloc`). -/
def netlocEnd (c : Char) : Bool := c = '/' || c = '?' || c = '#'

/-- `_splitnetloc`: when the remainder starts with `//`, read the netloc
up to the first `/`, `?` or `#`. -/
def splitNetloc (l : Chars) : Chars × Chars :=
  match l with
  | '/' :: '/' :: r => (r.takeWhile (fun c => !netlocEnd c),
                        r.dropWhile (fun c => !netlocEnd c))
  | r => ([], r)

/-- `urllib.parse.urlsplit(url, scheme=dflt)` (with `allow_fragments=True`,
as in every call the scraper makes). -/
def urlsplit (url0 : Chars) (dflt : Chars := []) : UrlParts :=
  let url := cleanUrl url0
  let sp : Chars × Chars :=
    match splitFirst ':' url with
    | some (pre, post) =>
      if pre ≠ [] ∧ (pre.headD ' ').isAlpha ∧ pre.all schemeChar then
        (lowerChars pre, post)
      else (dflt, url)
    | none => (dflt, url)
  let np : Chars × Chars := splitNetloc sp.2
  let fp : Chars × Chars := splitTail '#' np.2
  let pq : Chars × Chars := splitTail '?' fp.1
  ⟨sp.1, np.1, pq.1, pq.2, fp.2⟩

/-- `urllib.parse.urlunsplit`. -/
def urlunsplit (p : UrlParts) : Chars :=
  let url := p.path
  let url :=
    if p.netloc ≠ [] ∨ url.take 2 = ['/', '/'] then
      let u2 := if url ≠ [] ∧ url.head? ≠ some '/' then '/' :: url else url
      '/' :: '/' :: (p.netloc ++ u2)
    else url
  let url := if p.scheme ≠ [] then p.scheme ++ ':' :: url else url
  let url := if p.query ≠ [] then url ++ '?' :: p.query else url
  if p.fragment ≠ [] then url ++ '#' :: p.fragment else url

/-- `uses_relative` from `urllib.parse`. -/
def usesRelative : List Chars :=
  (["", "ftp", "http", "gopher", "nntp", "imap", "wais", "file", "https",
    "shttp", "mms", "prospero", "rtsp", "rtspu", "sftp", "svn", "svn+ssh",
    "ws", "wss"].map String.data)

/-- `uses_netloc` from `urllib.parse`. -/
def usesNetloc : List Chars :=
  (["", "ftp", "http", "gopher", "nntp", "telnet", "imap", "wais", "file",
    "mms", "https", "shttp", "snews", "prospero", "rtsp", "rtspu", "rsync",
    "svn", "svn+ssh", "sftp", "nfs", "git", "git+ssh", "ws",
    "wss"].map String.data)

/-- Python `str.split(sep)` for a one-character separator (never empty). -/
def splitOn (sep : Char) : Chars → List Chars
  | [] => [[]]
  | c :: t =>
    match splitOn sep t with
    | [] => [[]]
    | h :: r => if c = sep then [] :: h :: r else (c :: h) :: r

/-- `segments[1:-1] = filter(None, segments[1:-1])`: drop empty interior
segments, keeping the first and last. -/
def filterMiddle (l : List Chars) : List Chars :=
  match l with
  | [] => []
  | [a] => [a]
  | a :: rest => a :: (rest.dropLast.filter (· ≠ [])) ++ [rest.getLastD []]

/-- The `..`/`.` resolution loop of `urljoin`, including the trailing
empty segment appended when the last segment is `.` or `..`. -/
def resolveSegs (segs : List Chars) : List Chars :=
  let r := segs.foldl
    (fun acc seg =>
      if seg = ['.', '.'] then acc.dropLast
      else if seg = ['.'] then acc
      else acc ++ [seg]) []
  if segs.getLast? = some ['.'] ∨ segs.getLast? = some ['.', '.'] then
    r ++ [[]]
  else r

/-- `urllib.parse.urljoin(base, url)`. -/
def urljoin (base url : Chars) : Chars :=
  if base = [] then url
  else if url = [] then base
  else
    let b := urlsplit base []
    let u := urlsplit url b.scheme
    if u.scheme ≠ b.scheme ∨ u.scheme ∉ usesRelative then url
    else if u.scheme ∈ usesNetloc ∧ u.netloc ≠ [] then
      urlunsplit ⟨u.scheme, u.netloc, u.path, u.query, u.fragment⟩
    else
      let netloc := if u.scheme ∈ usesNetloc then b.netloc else u.netloc
      if u.path = [] then
        urlunsplit ⟨u.scheme, netloc, b.path,
          (if u.query = [] then b.query else u.query), u.fragment⟩
      else
        let baseParts0 := splitOn '/' b.path
        let baseParts :=
          if baseParts0.getLast? ≠ some [] then baseParts0.dropLast
          else baseParts0
        let segments :=
          if u.path.head? = some '/' then splitOn '/' u.path
          else filterMiddle (baseParts ++ splitOn '/' u.path)
        let joined := List.intercalate ['/'] (resolveSegs segments)
        urlunsplit ⟨u.scheme, netloc,
          (if joined = [] then ['/'] else joined), u.query, u.fragment⟩

/-- `urllib.parse.urldefrag`. -/
def urldefrag (url : Chars) : Chars × Chars :=
  if '#' ∈ url then
    let p := urlsplit url []
    (urlunsplit ⟨p.scheme, p.netloc, p.path, p.query, []⟩, p.fragment)
  else (url, [])

/-- A URL is absolute when `urlsplit` finds a scheme in it. -/
def hasScheme (u : Chars) : Bool := (urlsplit u []).scheme ≠ []

/-- The URL prefixes for which a session built by `create_session` has a
connection adapter mounted; `session.get` on any other URL raises
`InvalidSchema` before any network traffic. -/
def fetchableUrl (u : Chars) : Bool :=
  ("http://".data).isPrefixOf (lowerChars u) ||
  ("https://".data).isPrefixOf (lowerChars u)

/-! ## Page and site model -/

/-- `BASE_URL` from `scrapper_lib`. -/
def BASE_URL : Chars := "https://books.toscrape.com/".data

/-- The `book.h3.a` anchor of a listing card: its `title` attribute, its
stripped text, and its `href` attribute. -/
structure Anchor where
  titleAttr : Option Chars
  text : Chars
  href : Option Chars
deriving DecidableEq

/-- One `article.product_pod` card, holding exactly what `get_books` reads.
`h3Missing` marks a card with no `h3` element at all: on such a card the
source binds no `a_tag` in the `try` block and the later unguarded
`a_tag.get("href") if a_tag else None` raises `UnboundLocalError`, aborting
the whole crawl. `anchor = none` is the benign case `book.h3.a is None`.
`priceText` is the stripped text of `p.price_color` (absent tag: `none`);
`rating` is the result of `extract_rating_from_tag`, modelled as data since
no claim depends on its internals; `imgSrc` is the `src` of the first
`img`. -/
structure BookCard where
  h3Missing : Bool
  anchor : Option Anchor
  priceText : Option Chars
  rating : Option Int
  imgSrc : Option Chars
deriving DecidableEq

/-- One category listing page: the `h1` text, the product cards, and the
`li.next a` href (`none` covers both a missing anchor and a missing
attribute; an empty href is falsy in the source and handled separately). -/
structure ListingPage where
  h1 : Option Chars
  cards : List BookCard
  nextHref : Option Chars
deriving DecidableEq

/-- One product detail page: the text of `p.instock.availability` (absent
tag: `none`) and the `src` of the detail image selected by
`.thumbnail img` / `div.item img`. -/
structure ProductPage where
  availText : Option Chars
  detailImg : Option Chars
deriving DecidableEq

/-- A `ul.nav.nav-list ul li a` link of the root page sidebar. -/
structure CatLink where
  name : Chars
  href : Option Chars
deriving DecidableEq

/-- The network oracle: what `load_page` (on listing pages and the root)
and `load_product_page_with_cache` would return, with `none` meaning the
call raises. `root` is the parsed sidebar of `BASE_URL`, as read by
`get_categories`. -/
structure Site where
  listing : Chars → Option ListingPage
  product : Chars → Option ProductPage
  root : Option (List CatLink)

/-- A site oracle is well formed when it only answers on URLs for which
the session has a connection adapter (see `fetchableUrl`). -/
def Site.WF (site : Site) : Prop :=
  ∀ u, site.listing u ≠ none → fetchableUrl u = true

/-- `scrapper_lib.get_categories`: keep the sidebar links with a truthy
href, in order, as `(name, href)` pairs; `none` when the root page load
raises. -/
def get_categories (site : Site) : Option (List (Chars × Chars)) :=
  site.root.map (fun links =>
    links.foldr
      (fun a acc =>
        match a.href with
        | some h => if h ≠ [] then (a.name, h) :: acc else acc
        | none => acc) [])

/-- The record `get_books` appends for one card (the keys of the Python
dict, with `availability` always a `bool` and `stock` the regex capture). -/
structure BookRecord where
  title : Option Chars
  price : Option ℚ
  rating : Option Int
  category : Option Chars
  image : Option Chars
  product_page : Option Chars
  availability : Bool
  stock : Option Nat
deriving DecidableEq

/-- `scrapper_lib.parse_availability_from_product_page`. -/
def parse_availability_from_product_page (p : ProductPage) : Bool × Option Nat :=
  match p.availText with
  | none => (false, none)
  | some t => parse_availability_text t

/-- The `product_page` URL of a card:
`urljoin(page_url, prod_href)` with the fragment dropped by `urldefrag`,
`None` when the anchor or its href is absent or the href is falsy. -/
def cardProductPage (page_url : Chars) (card : BookCard) : Option Chars :=
  match card.anchor with
  | some a =>
    match a.href with
    | some h => if h ≠ [] then some (urldefrag (urljoin page_url h)).1 else none
    | none => none
  | none => none

/-- The body of the `for book in book_nodes` loop of `get_books` for one
card that has an `h3` element, given the current page URL and the page's
category heading. -/
def process_card (site : Site) (page_url : Chars) (type_category : Option Chars)
    (card : BookCard) : BookRecord :=
  let title : Option Chars :=
    match card.anchor with
    | none => none
    | some a => some
        (match a.titleAttr with
         | some t => if t ≠ [] then t else a.text
         | none => a.text)
  let price : Option ℚ :=
    match card.priceText with
    | some pt => parse_price pt
    | none => none
  let image0 : Option Chars :=
    match card.imgSrc with
    | some s => if s ≠ [] then some (urljoin page_url s) else none
    | none => none
  match cardProductPage page_url card with
  | none => ⟨title, price, card.rating, type_category, image0, none, false, none⟩
  | some u =>
    match site.product u with
    | none =>
      ⟨title, price, card.rating, type_category, image0, some u, false, none⟩
    | some psoup =>
      let av := parse_availability_from_product_page psoup
      let image :=
        match psoup.detailImg with
        | some s => if s ≠ [] then some (urljoin u s) else image0
        | none => image0
      ⟨title, price, card.rating, type_category, image, some u, av.1, av.2⟩

/-- Process the cards of one page in order; `none` when a card with no
`h3` raises `UnboundLocalError` (losing every record of the crawl). -/
def processCards (site : Site) (page_url : Chars) (cat : Option Chars) :
    List BookCard → Option (List BookRecord)
  | [] => some []
  | card :: rest =>
    if card.h3Missing then none
    else
      match processCards site page_url cat rest with
      | some rs => some (process_card site page_url cat card :: rs)
      | none => none

/-- Outcome of a crawl: a materialised record list, a propagated Python
exception, or fuel exhaustion (an artefact of the embedding marking a
non-terminating page chain). -/
inductive CrawlOutcome where
  | ok (books : List BookRecord)
  | exn
  | fuelOut
deriving DecidableEq

/-- The truthy `next` href of a page:
`next_a and next_a.get("href")`. -/
def pageNext (pg : ListingPage) : Option Chars :=
  match pg.nextHref with
  | some h => if h ≠ [] then some h else none
  | none => none

/-- The `while True` pagination loop of `scrapper_lib.get_books`, with
explicit fuel. -/
def get_books_loop (site : Site) : Nat → Chars → List BookRecord → CrawlOutcome
  | 0, _, _ => .fuelOut
  | fuel + 1, page_url, acc =>
    match site.listing page_url with
    | none => .exn
    | some pg =>
      match processCards site page_url pg.h1 pg.cards with
      | none => .exn
      | some recs =>
        match pageNext pg with
        | some h => get_books_loop site fuel (urljoin page_url h) (acc ++ recs)
        | none => .ok (acc ++ recs)

/-- `scrapper_lib.get_books`: crawl one category from its href. -/
def get_books (site : Site) (fuel : Nat) (category_href_or_url : Chars) :
    CrawlOutcome :=
  get_books_loop site fuel (urljoin BASE_URL category_href_or_url) []

/-! ## Orchestration (`scrape_all_categories`) -/

/-- The summary dict returned by `scrape_all_categories` (the
`output_dir` / `csv_master` path strings are filesystem configuration and
are not modelled). -/
structure ScrapeSummary where
  categories_count : Nat
  total_books : Nat
deriving DecidableEq

/-- `if max_categories: categories = categories[:max_categories]` — note
that `0` is falsy in Python, so a zero limit disables truncation. -/
def truncateCats (cats : List (Chars × Chars)) (mc : Option Nat) :
    List (Chars × Chars) :=
  match mc with
  | none => cats
  | some k => if k ≠ 0 then cats.take k else cats

/-- The per-category loop of `scrape_all_categories`: each category's
`get_books` call is wrapped in `try/except`, a raising category
contributing `books = []`; the pair accumulates `results` and
`total_books`. `none` propagates the fuel artefact. -/
def scrapeCats (site : Site) (fuel : Nat) :
    List (Chars × Chars) → Option (List (Chars × List BookRecord) × Nat)
  | [] => some ([], 0)
  | (name, href) :: rest =>
    match get_books site fuel href with
    | .fuelOut => none
    | out =>
      let bs := match out with | .ok l => l | _ => []
      match scrapeCats site fuel rest with
      | some (rs, t) => some ((name, bs) :: rs, bs.length + t)
      | none => none

/-- `scrapper_lib.scrape_all_categories` (the CSV side effect is modelled
separately by `save_books_rows`); `none` when `get_categories` raises or
fuel runs out. -/
def scrape_all_categories (site : Site) (fuel : Nat) (mc : Option Nat) :
    Option ScrapeSummary :=
  match get_categories site with
  | none => none
  | some cats0 =>
    match scrapeCats site fuel (truncateCats cats0 mc) with
    | none => none
    | some (results, total) => some ⟨results.length, total⟩

/-! ## CSV persistence (`save_books_to_csv_master`) -/

/-- A book dict as consumed by `save_books_to_csv_master` (each `.get`
yields `None` for an absent key). -/
structure PyBook where
  title : Option Chars
  price : Option ℚ
  rating : Option Int
  category : Option Chars
  image : Option Chars
  product_page : Option Chars
  availability : Option Bool
  stock : Option Int
  image_base64 : Option Chars
deriving DecidableEq

/-- The dict built by the category crawl, viewed through the `.get` calls
of the CSV writer (no `image_base64` key is ever set: embedding is
disabled). -/
def toPyBook (r : BookRecord) : PyBook :=
  ⟨r.title, r.price, r.rating, r.category, r.image, r.product_page,
   some r.availability, r.stock.map Int.ofNat, none⟩

/-- Python `str(...)` of an int. -/
def intChars (n : Int) : Chars := (toString n).data

/-- The `fieldnames` list of `save_books_to_csv_master`. -/
def master_fieldnames : List Chars :=
  (["title", "price", "rating", "category", "image", "product_page",
    "availability", "stock", "image_base64"].map String.data)

/-- The row dict written for one book, after Python `str()` of every
value; float formatting is abstracted by `frepr`. -/
def render_row (frepr : ℚ → Chars) (b : PyBook) : List Chars :=
  [ (match b.title with | some t => t | none => []),
    (match b.price with | some q => frepr q | none => []),
    (match b.rating with | some n => intChars n | none => []),
    (match b.category with | some t => t | none => []),
    (match b.image with | some t => t | none => []),
    (match b.product_page with | some t => t | none => []),
    (match b.availability with
     | some true => "yes".data | some false => "no".data | none => []),
    (match b.stock with | some n => intChars n | none => []),
    (match b.image_base64 with | some t => t | none => []) ]

/-- The logical rows of the master CSV: header first, then one row per
book, in order (`extrasaction="ignore"` drops no modelled key). -/
def save_books_rows (frepr : ℚ → Chars) (books : List PyBook) :
    List (List Chars) :=
  master_fieldnames :: books.map (render_row frepr)

/-- `csv.QUOTE_ALL` serialisation of one field: wrap in double quotes,
doubling interior double quotes. -/
def csv_quote (f : Chars) : Chars :=
  '"' :: (f.foldr (fun c acc =>
    if c = '"' then '"' :: '"' :: acc else c :: acc) ['"'])

/-- One physical CSV line (`\r\n` terminator, the `csv` module default). -/
def csv_line (row : List Chars) : Chars :=
  List.intercalate [','] (row.map csv_quote) ++ ['\r', '\n']

/-- The full text of the master CSV file; the leading U+FEFF is the BOM
written by the `utf-8-sig` encoding. -/
def csv_text (frepr : ℚ → Chars) (books : List PyBook) : Chars :=
  '\uFEFF' :: (save_books_rows frepr books).foldr
    (fun r acc => csv_line r ++ acc) []

/-! ## Job state guard (`routes/public/scrapper.py`) -/

/-- A recorded job outcome: the `last_result` dict. -/
inductive LastResult where
  | success (summary : ScrapeSummary)
  | error (msg : Chars)
deriving DecidableEq

/-- The module-level `_scrapper_state` dict. -/
structure ScrapperState where
  is_running : Bool
  last_result : Option LastResult
deriving DecidableEq

/-- HTTP response of the trigger endpoint: 202 or 409. -/
inductive TriggerResponse where
  | accepted
  | conflict
deriving DecidableEq

/-- `trigger_scrapping`: the state transition performed under `_lock`,
returning the response, the new state, and whether
`background_tasks.add_task(_run_scrapper_task)` was called. -/
def trigger_scrapping (st : ScrapperState) :
    TriggerResponse × ScrapperState × Bool :=
  if st.is_running then (.conflict, st, false)
  else (.accepted, ⟨true, none⟩, true)

/-- What the scrape run did: returned a summary, or raised an exception
carrying a type name and a message. -/
structure ExcInfo where
  name : Chars
  msg : Chars
deriving DecidableEq

/-- The f-string `f"{type(e).__name__}: {e}"`. -/
def format_exc (e : ExcInfo) : Chars := e.name ++ ": ".data ++ e.msg

/-- `_run_scrapper_task`: the `try/except/finally` around
`scrape_all_categories`, as a transition on the module state, parametrised
by the run's outcome. -/
def run_scrapper_task (st : ScrapperState)
    (outcome : Except ExcInfo ScrapeSummary) : ScrapperState :=
  let st1 :=
    match outcome with
    | .ok s => { st with last_result := some (.success s) }
    | .error e => { st with last_result := some (.error (format_exc e)) }
  { st1 with is_running := false }

/-! ## Specification-side predicates

Declarative restatements of the spec's wording, used in the claim
theorems and related to the executable translations by lemmas. -/

/-- The spec's "the text contains a parenthesized count `(N available)`"
at offset `i`: a `(`, a nonempty digit run, optional whitespace, the word
`available` in any letter case, and `)`. -/
def ParenCountAt (t : Chars) (i n : Nat) : Prop :=
  ∃ ds ws av rest,
    t.drop i = '(' :: (ds ++ ws ++ av ++ ')' :: rest) ∧
    ds ≠ [] ∧ (∀ c ∈ ds, c.isDigit = true) ∧
    (∀ c ∈ ws, isSpaceP c = true) ∧
    lowerChars av = "available".data ∧
    n = natOfDigits ds

/-- The syntactic shape of a detected URL scheme: nonempty, starting with
a letter, all characters drawn from `scheme_chars`. -/
def SchemeShape (s : Chars) : Prop :=
  s ≠ [] ∧ (s.headD ' ').isAlpha = true ∧ ∀ c ∈ s, schemeChar c = true

/-- The spec's "the text contains the substring `in stock`
case-insensitively". -/
def InStockCI (t : Chars) : Prop :=
  ∃ i, ("in stock".data).isPrefixOf ((lowerChars t).drop i) = true

/-- The records contributed by one category inside
`scrape_all_categories`: the crawl's list on success, `[]` when the
per-category `except` clause caught an exception. -/
def booksOf (site : Site) (fuel : Nat) (href : Chars) : List BookRecord :=
  match get_books site fuel href with
  | .ok l => l
  | _ => []

/-- A finite chain of category listing pages: each entry pairs a page URL
with the records its cards yield; every page but the last carries a truthy
`next` href resolving to the following entry's URL, and the last page has
none. -/
def ChainOK (site : Site) : List (Chars × List BookRecord) → Prop
  | [] => True
  | [(u, r)] =>
    ∃ pg, site.listing u = some pg ∧
      processCards site u pg.h1 pg.cards = some r ∧ pageNext pg = none
  | (u, r) :: (u', r') :: rest =>
    ∃ pg, site.listing u = some pg ∧
      processCards site u pg.h1 pg.cards = some r ∧
      ∃ h, pageNext pg = some h ∧ u' = urljoin u h ∧
        ChainOK site ((u', r') :: rest)

/-! ## Concrete fixtures

Small concrete sites used to witness the claim theorems on explicit
inputs. -/

/-- A product card with an `h3` but no anchor, no price tag, no rating and
no image. -/
def cardEmpty : BookCard := ⟨false, none, none, none, none⟩

/-- A single listing page with one empty card and no `next` link. -/
def pageB : ListingPage := ⟨some ("B".data), [cardEmpty], none⟩

/-- A site with two sidebar categories; crawling the first raises (its
listing URL is unreachable), the second yields one book. -/
def siteAB : Site :=
  ⟨fun u => if u = ("https://books.toscrape.com/b".data) then some pageB
            else none,
   fun _ => none,
   some [⟨"A".data, some ("a".data)⟩, ⟨"B".data, some ("b".data)⟩]⟩

/-- A site with one sidebar category whose every page load raises. -/
def siteA : Site :=
  ⟨fun _ => none, fun _ => none, some [⟨"A".data, some ("a".data)⟩]⟩

/-- First page of a two-page chain: one card, `next` href `p2`. -/
def pageOne : ListingPage := ⟨some ("T".data), [cardEmpty], some ("p2".data)⟩

/-- Last page of the chain: two cards, no `next` link. -/
def pageTwo : ListingPage := ⟨some ("T".data), [cardEmpty, cardEmpty], none⟩

/-- A site carrying the two-page chain `p1 → p2`. -/
def siteChain : Site :=
  ⟨fun u => if u = ("http://e/p1".data) then some pageOne
            else if u = ("http://e/p2".data) then some pageTwo else none,
   fun _ => none, none⟩

/-- The record an empty card yields on a page with heading `T`. -/
def bookT : BookRecord :=
  ⟨none, none, none, some ("T".data), none, none, false, none⟩

/-- A card whose anchor links to a product page with a URL fragment. -/
def cardLink : BookCard :=
  ⟨false, some ⟨some ("A Book".data), "A".data, some ("b.html#frag".data)⟩,
   none, none, none⟩

/-- A one-page listing holding `cardLink`. -/
def pageLink : ListingPage := ⟨some ("T".data), [cardLink], none⟩

/-- A site serving `pageLink` at one `http` URL and nothing else. -/
def siteLink : Site :=
  ⟨fun u => if u = ("http://e/p1".data) then some pageLink else none,
   fun _ => none, none⟩

/-! ## Character-level lemmas -/

lemma char_toNat_ofNat (n : Nat) (h : n.isValidChar) :
    (Char.ofNat n).toNat = n := by
  simp only [Char.ofNat, h, dif_pos, Char.ofNatAux, Char.toNat]
  exact BitVec.toNat_ofNatLt _ _

lemma char_eq_of_toNat {c d : Char} (h : c.toNat = d.toNat) : c = d := by
  apply Char.eq_of_val_eq
  apply UInt32.eq_of_toBitVec_eq
  apply BitVec.eq_of_toNat_eq
  exact h

lemma toLower_of_upper (c : Char) (h : 65 ≤ c.toNat ∧ c.toNat ≤ 90) :
    c.toLower.toNat = c.toNat + 32 := by
  have hv : (c.toNat + 32).isValidChar := by
    unfold Nat.isValidChar
    omega
  show (if c.toNat ≥ 65 ∧ c.toNat ≤ 90 then
    Char.ofNat (c.toNat + 32) else c).toNat = c.toNat + 32
  rw [if_pos h]
  exact char_toNat_ofNat _ hv

lemma toLower_of_not_upper (c : Char) (h : ¬ (65 ≤ c.toNat ∧ c.toNat ≤ 90)) :
    c.toLower = c := by
  show (if c.toNat ≥ 65 ∧ c.toNat ≤ 90 then Char.ofNat (c.toNat + 32) else c) = c
  rw [if_neg h]

lemma isUpper_iff (c : Char) : c.isUpper = true ↔ 65 ≤ c.toNat ∧ c.toNat ≤ 90 := by
  simp only [Char.isUpper, Bool.and_eq_true, decide_eq_true_iff]
  exact Iff.rfl

lemma isLower_iff (c : Char) : c.isLower = true ↔ 97 ≤ c.toNat ∧ c.toNat ≤ 122 := by
  simp only [Char.isLower, Bool.and_eq_true, decide_eq_true_iff]
  exact Iff.rfl

lemma isDigit_iff (c : Char) : c.isDigit = true ↔ 48 ≤ c.toNat ∧ c.toNat ≤ 57 := by
  simp only [Char.isDigit, Bool.and_eq_true, decide_eq_true_iff]
  exact Iff.rfl

lemma isAlpha_iff (c : Char) :
    c.isAlpha = true ↔ (65 ≤ c.toNat ∧ c.toNat ≤ 90) ∨
      (97 ≤ c.toNat ∧ c.toNat ≤ 122) := by
  simp only [Char.isAlpha, Bool.or_eq_true, isUpper_iff, isLower_iff]

lemma char_le_space_iff (c : Char) : c ≤ ' ' ↔ c.toNat ≤ 32 := Iff.rfl

/-- Inverting `Char.toLower` at a target that is not a lowercase letter. -/
lemma eq_of_toLower_eq_nonletter {c x : Char}
    (hx : ¬ (97 ≤ x.toNat ∧ x.toNat ≤ 122)) (h : c.toLower = x) : c = x := by
  by_cases hu : 65 ≤ c.toNat ∧ c.toNat ≤ 90
  · exfalso
    have h2 := toLower_of_upper c hu
    rw [h] at h2
    omega
  · rwa [toLower_of_not_upper c hu] at h

/-- A character whose lowercase form is a lowercase letter is a letter. -/
lemma isAlpha_of_toLower_letter {c x : Char}
    (hx : 97 ≤ x.toNat ∧ x.toNat ≤ 122) (h : c.toLower = x) :
    c.isAlpha = true := by
  by_cases hu : 65 ≤ c.toNat ∧ c.toNat ≤ 90
  · exact (isAlpha_iff c).mpr (Or.inl hu)
  · rw [toLower_of_not_upper c hu] at h
    exact (isAlpha_iff c).mpr (Or.inr (h ▸ hx))

lemma alpha_not_le_space {c : Char} (h : c.isAlpha = true) : ¬ c ≤ ' ' := by
  rw [char_le_space_iff]
  rcases (isAlpha_iff c).mp h with h2 | h2 <;> omega

lemma digit_toLower {c : Char} (h : c.isDigit = true) : c.toLower = c := by
  have h2 := (isDigit_iff c).mp h
  exact toLower_of_not_upper c (by omega)

lemma space_toLower {c : Char} (h : isSpaceP c = true) : c.toLower = c := by
  apply toLower_of_not_upper
  simp only [isSpaceP, Bool.or_eq_true, decide_eq_true_iff] at h
  rcases h with ((((h | h) | h) | h) | h) | h <;> subst h <;> decide

lemma digit_not_space {c : Char} (h : c.isDigit = true) : isSpaceP c = false := by
  have h2 := (isDigit_iff c).mp h
  rw [Bool.eq_false_iff]
  intro hsp
  simp only [isSpaceP, Bool.or_eq_true, decide_eq_true_iff] at hsp
  rcases hsp with ((((hs | hs) | hs) | hs) | hs) | hs <;> subst hs <;>
    exact absurd h2 (by decide)

/-- `schemeChar` characters survive `cleanUrl` and are not separators. -/
lemma schemeChar_facts {c : Char} (h : schemeChar c = true) :
    ¬ c ≤ ' ' ∧ c ≠ ':' ∧ c ≠ '\t' ∧ c ≠ '\r' ∧ c ≠ '\n' := by
  have hn : 33 ≤ c.toNat ∧ c.toNat ≤ 122 ∧ c.toNat ≠ 58 := by
    simp only [schemeChar, Bool.or_eq_true, decide_eq_true_iff] at h
    rcases h with (((ha | hd) | hp) | hm) | hdot
    · rcases (isAlpha_iff c).mp ha with h2 | h2 <;> omega
    · have h2 := (isDigit_iff c).mp hd
      omega
    · subst hp; decide
    · subst hm; decide
    · subst hdot; decide
  refine ⟨?_, ?_, ?_, ?_, ?_⟩
  · rw [char_le_space_iff]; omega
  all_goals
    intro he; subst he; exact absurd hn (by decide)

/-! ## Claim C2: the trigger endpoint -/

/-- Claim C2: for every state of the scrape job guard, a trigger call with
`is_running = true` returns Conflict, leaves the state unchanged and
dispatches nothing; with `is_running = false` it returns Accepted, sets
`is_running := true`, clears `last_result` to `None` and dispatches the
background task. -/
theorem trigger_scrapping_single_flight (st : ScrapperState) :
    (st.is_running = true → trigger_scrapping st = (.conflict, st, false)) ∧
    (st.is_running = false →
      trigger_scrapping st = (.accepted, ⟨true, none⟩, true)) := by
  constructor <;> intro h <;> simp [trigger_scrapping, h]

/-- Witness for C2 at two concrete guard states. -/
theorem trigger_scrapping_single_flight_witness :
    trigger_scrapping ⟨true, none⟩ = (.conflict, ⟨true, none⟩, false) ∧
    trigger_scrapping ⟨false, some (.error ("x".data))⟩ =
      (.accepted, ⟨true, none⟩, true) :=
  ⟨(trigger_scrapping_single_flight ⟨true, none⟩).1 rfl,
   (trigger_scrapping_single_flight ⟨false, some (.error ("x".data))⟩).2 rfl⟩

/-! ## Claim C3: the background task wrapper -/

/-- Claim C3: whatever the scrape run does (returns a summary or raises),
after `run_scrapper_task` the running flag is false and `last_result` holds
the tagged outcome — success with the summary, or error with the message
derived from the exception — replacing any prior result. -/
theorem run_scrapper_task_records_outcome (st : ScrapperState)
    (outcome : Except ExcInfo ScrapeSummary) :
    (run_scrapper_task st outcome).is_running = false ∧
    (run_scrapper_task st outcome).last_result =
      some (match outcome with
            | .ok s => .success s
            | .error e => .error (format_exc e)) := by
  cases outcome <;> simp [run_scrapper_task]

/-! ## Claim C4: the master CSV format -/

lemma csv_quote_shape (f : Chars) : ∃ m, csv_quote f = '"' :: m ++ ['"'] := by
  have h : ∀ g : Chars, ∃ m : Chars,
      g.foldr (fun c acc => if c = '"' then '"' :: '"' :: acc else c :: acc)
        ['"'] = m ++ ['"'] := by
    intro g
    induction g with
    | nil => exact ⟨[], rfl⟩
    | cons c t ih =>
      obtain ⟨m, hm⟩ := ih
      by_cases hc : c = '"'
      · exact ⟨'"' :: '"' :: m, by simp [hc, hm]⟩
      · exact ⟨c :: m, by simp [hc, hm]⟩
  obtain ⟨m, hm⟩ := h f
  exact ⟨m, by simp [csv_quote, hm]⟩

/-- Counterexample to claim C4 as stated: the header row of the master CSV
is not the eight-column list `title … stock` — the writer emits a ninth
trailing `image_base64` column. -/
theorem save_books_rows_header_counterexample :
    (save_books_rows (fun _ => []) []).head? = some master_fieldnames ∧
    master_fieldnames ≠
      (["title", "price", "rating", "category", "image", "product_page",
        "availability", "stock"].map String.data) := by
  constructor
  · rfl
  · decide

/-- Claim C4 (amended): the consolidated CSV has the fixed column order
`title, price, rating, category, image, product_page, availability, stock,
image_base64` with the header row first, one row per book in order, every
field quoted, `price`/`rating`/`stock` rendered as the empty string when
`None`, and `availability` rendered as `yes`/`no`/empty. -/
theorem save_books_to_csv_master_format (frepr : ℚ → Chars)
    (books : List PyBook) :
    (save_books_rows frepr books).head? = some master_fieldnames ∧
    (save_books_rows frepr books).tail = books.map (render_row frepr) ∧
    (∀ b ∈ books,
      (render_row frepr b).length = 9 ∧
      (b.price = none → (render_row frepr b)[1]? = some []) ∧
      (∀ q, b.price = some q → (render_row frepr b)[1]? = some (frepr q)) ∧
      (b.rating = none → (render_row frepr b)[2]? = some []) ∧
      (b.stock = none → (render_row frepr b)[7]? = some []) ∧
      ((render_row frepr b)[6]? =
        some (match b.availability with
              | some true => "yes".data
              | some false => "no".data
              | none => []))) ∧
    (∀ row ∈ save_books_rows frepr books,
      csv_line row = List.intercalate [','] (row.map csv_quote) ++
        ['\x0d', '\n'] ∧
      ∀ f ∈ row, ∃ m, csv_quote f = '"' :: m ++ ['"']) := by
  refine ⟨rfl, rfl, ?_, ?_⟩
  · intro b _
    refine ⟨rfl, ?_, ?_, ?_, ?_, rfl⟩ <;> intro h
    · simp [render_row, h]
    · intro hq
      simp [render_row, hq]
    · simp [render_row, h]
    · simp [render_row, h]
  · intro row _
    exact ⟨rfl, fun f _ => csv_quote_shape f⟩

/-- Witness for C4 (amended) at a one-book input with every optional field
absent. -/
theorem save_books_to_csv_master_format_witness :
    (save_books_rows (fun _ => [])
        [⟨none, none, none, none, none, none, none, none, none⟩]).head? =
      some master_fieldnames ∧
    (render_row (fun _ => [])
        ⟨none, none, none, none, none, none, none, none, none⟩)[1]? =
      some [] ∧
    (render_row (fun _ => [])
        ⟨none, none, none, none, none, none, none, none, none⟩)[6]? =
      some [] := by
  have h := save_books_to_csv_master_format (fun _ => [])
    [⟨none, none, none, none, none, none, none, none, none⟩]
  obtain ⟨h1, _, h3, _⟩ := h
  have hb := h3 ⟨none, none, none, none, none, none, none, none, none⟩
    (by simp)
  exact ⟨h1, hb.2.1 rfl, by rw [hb.2.2.2.2.2]⟩

/-! ## Claim C6: price parsing -/

lemma mem_of_head? {l : Chars} {c : Char} (h : l.head? = some c) : c ∈ l := by
  cases l with
  | nil => simp at h
  | cons a t =>
    simp only [List.head?_cons, Option.some.injEq] at h
    subst h
    exact List.mem_cons_self a t

lemma mem_pyStrip {c : Char} {l : Chars} (h : c ∈ pyStrip l) : c ∈ l := by
  unfold pyStrip at h
  rw [List.mem_reverse] at h
  have h2 := List.Sublist.mem h (List.dropWhile_sublist _)
  rw [List.mem_reverse] at h2
  exact List.Sublist.mem h2 (List.dropWhile_sublist _)

lemma pyFloatExp_nonneg (mant : ℚ) (r2 : Chars) (hm : 0 ≤ mant) :
    ∀ q, pyFloatExp mant r2 = some q → 0 ≤ q := by
  intro q hq
  simp only [pyFloatExp] at hq
  repeat' split at hq
  all_goals
    first
      | exact Option.noConfusion hq
      | (simp only [Option.some.injEq] at hq
         subst hq
         first
           | exact hm
           | exact mul_nonneg hm (le_of_lt (zpow_pos (by norm_num) _)))

lemma pyFloatMag_nonneg {r0 : Chars} :
    ∀ q, pyFloatMag r0 = some q → 0 ≤ q := by
  intro q hq
  simp only [pyFloatMag] at hq
  repeat' split at hq
  all_goals
    first
      | exact Option.noConfusion hq
      | exact pyFloatExp_nonneg _ _ (by positivity) q hq

lemma pyFloat_nonneg {l : Chars} (h : '-' ∉ l) :
    ∀ q, pyFloat l = some q → 0 ≤ q := by
  intro q hq
  have hsh : ¬ (pyStrip l).head? = some '-' :=
    fun hh => h (mem_pyStrip (mem_of_head? hh))
  simp only [pyFloat, Option.map_eq_some'] at hq
  obtain ⟨m, hm, hqm⟩ := hq
  rw [if_neg hsh] at hqm
  rw [← hqm, one_mul]
  exact pyFloatMag_nonneg m hm

/-- Claim C6 (amended): `parse_price` never raises — it is total, returning
`None` exactly when `float()` fails on the cleaned text — and whenever the
input contains no minus sign, a returned value is non-negative. (As stated
the claim is false: the currency strip leaves an explicit sign in place and
`float` parses signed decimals, so a text such as `"£-5.0"` yields a
negative value; see the counterexample.) -/
theorem parse_price_total_and_nonneg (t : Chars) :
    (parse_price t = none ∨ ∃ q, parse_price t = some q) ∧
    (∀ q, parse_price t = some q → '-' ∉ t → 0 ≤ q) := by
  constructor
  · cases hq : parse_price t with
    | none => exact Or.inl rfl
    | some q => exact Or.inr ⟨q, rfl⟩
  · intro q hq hneg
    unfold parse_price at hq
    refine pyFloat_nonneg ?_ q hq
    intro hin
    apply hneg
    have h2 := mem_pyStrip hin
    exact List.mem_of_mem_filter (List.mem_of_mem_filter h2)

/-- Witness for C6 at the catalogue price string `"£51.77"`. -/
theorem parse_price_total_and_nonneg_witness :
    parse_price ("£51.77".data) = some (5177 / 100) ∧
    0 ≤ (5177 / 100 : ℚ) := by
  have h0 : parse_price ("£51.77".data) =
      some ((1 : ℚ) * ((natOfDigits ['5', '1'] : ℚ) +
        (natOfDigits ['7', '7'] : ℚ) / (10 : ℚ) ^ (['7', '7'] : Chars).length)) :=
    rfl
  have h1 : natOfDigits ['5', '1'] = 51 := rfl
  have h2 : natOfDigits ['7', '7'] = 77 := rfl
  have heq : parse_price ("£51.77".data) = some (5177 / 100) := by
    rw [h0, h1, h2]
    norm_num
  exact ⟨heq,
    (parse_price_total_and_nonneg ("£51.77".data)).2 _ heq (by decide)⟩

/-- Counterexample to claim C6 as stated: `parse_price` on `"£-5.0"`
returns a negative value, not `None` and not a non-negative decimal. -/
theorem parse_price_negative_counterexample :
    parse_price ("£-5.0".data) = some (-5) ∧ ¬ (0 ≤ (-5 : ℚ)) := by
  have h0 : parse_price ("£-5.0".data) =
      some ((-1 : ℚ) * ((natOfDigits ['5'] : ℚ) +
        (natOfDigits ['0'] : ℚ) / (10 : ℚ) ^ (['0'] : Chars).length)) := rfl
  have h1 : natOfDigits ['5'] = 5 := rfl
  have h2 : natOfDigits ['0'] = 0 := rfl
  constructor
  · rw [h0, h1, h2]
    norm_num
  · norm_num

/-! ## Claims C5 and C9: the orchestrator -/

/-- The per-category loop, resolved: when no category hits the fuel
artefact, `scrapeCats` records every category in order, a raising category
contributing the empty list, and sums the record counts. -/
lemma scrapeCats_spec (site : Site) (fuel : Nat) (cats : List (Chars × Chars))
    (h : ∀ c ∈ cats, get_books site fuel c.2 ≠ .fuelOut) :
    scrapeCats site fuel cats =
      some (cats.map (fun c => (c.1, booksOf site fuel c.2)),
        (cats.map (fun c => (booksOf site fuel c.2).length)).sum) := by
  induction cats with
  | nil => rfl
  | cons c rest ih =>
    obtain ⟨name, href⟩ := c
    have h1 := h (name, href) (List.mem_cons_self _ _)
    have ih2 := ih (fun d hd => h d (List.mem_cons_of_mem _ hd))
    cases hg : get_books site fuel href with
    | fuelOut => exact absurd hg h1
    | ok l =>
      simp only [scrapeCats, hg, ih2, booksOf, List.map_cons, List.sum_cons]
    | exn =>
      simp only [scrapeCats, hg, ih2, booksOf, List.map_cons, List.sum_cons]

/-- Claim C5: a category whose crawl raises is caught and contributes zero
records; the run continues through the remaining categories, the failed
category still counts towards `categories_count`, and `total_books` is the
sum of the per-category record counts (`booksOf` is `[]` exactly when the
category's `get_books` raised). -/
theorem scrape_all_categories_per_category_failure (site : Site) (fuel : Nat)
    (mc : Option Nat) (cats0 : List (Chars × Chars))
    (hroot : get_categories site = some cats0)
    (hfuel : ∀ c ∈ truncateCats cats0 mc,
      get_books site fuel c.2 ≠ .fuelOut) :
    scrape_all_categories site fuel mc =
      some ⟨(truncateCats cats0 mc).length,
        ((truncateCats cats0 mc).map
          (fun c => (booksOf site fuel c.2).length)).sum⟩ := by
  simp only [scrape_all_categories, hroot, scrapeCats_spec site fuel _ hfuel,
    List.length_map]

/-- Witness for C5: a two-category site whose first category's crawl
raises; the summary still counts two categories and one book. -/
theorem scrape_all_categories_per_category_failure_witness :
    get_books siteAB 1 ("a".data) = .exn ∧
    scrape_all_categories siteAB 1 none = some ⟨2, 1⟩ := by
  refine ⟨by decide, ?_⟩
  rw [scrape_all_categories_per_category_failure siteAB 1 none
    [("A".data, "a".data), ("B".data, "b".data)] (by decide) (by decide)]
  decide

/-- Counterexample to claim C9 as stated: with `max_categories = 0` the
code processes every category (zero is falsy, so the truncation is
skipped), not `min 0 (number of categories) = 0` of them. -/
theorem scrape_all_categories_max_zero_counterexample :
    scrape_all_categories siteA 1 (some 0) = some ⟨1, 0⟩ ∧
    (1 : Nat) ≠ min 0 1 := by
  exact ⟨by decide, by decide⟩

/-- Claim C9 (amended): for every positive `max_categories = K`,
`scrape_all_categories` processes exactly the first
`min K (number of discovered categories)` categories in discovery order;
`K = 0`, being falsy, disables the limit instead. -/
theorem scrape_all_categories_max_categories (site : Site) (fuel K : Nat)
    (cats0 : List (Chars × Chars)) (hK : K ≠ 0)
    (hroot : get_categories site = some cats0)
    (hfuel : ∀ c ∈ cats0.take K, get_books site fuel c.2 ≠ .fuelOut) :
    ∃ s, scrape_all_categories site fuel (some K) = some s ∧
      s.categories_count = min K cats0.length ∧
      s.total_books =
        ((cats0.take K).map (fun c => (booksOf site fuel c.2).length)).sum := by
  have ht : truncateCats cats0 (some K) = cats0.take K := by
    simp [truncateCats, hK]
  simp only [scrape_all_categories, hroot, ht,
    scrapeCats_spec site fuel _ hfuel, List.length_map]
  exact ⟨_, rfl, by simp [List.length_take], rfl⟩

/-- Witness for C9 (amended) at `K = 1` on the two-category site: exactly
`min 1 2 = 1` category is processed. -/
theorem scrape_all_categories_max_categories_witness :
    ∃ s, scrape_all_categories siteAB 1 (some 1) = some s ∧
      s.categories_count = 1 := by
  obtain ⟨s, h1, h2, _⟩ := scrape_all_categories_max_categories siteAB 1 1
    [("A".data, "a".data), ("B".data, "b".data)] (by decide) (by decide)
    (by decide)
  refine ⟨s, h1, ?_⟩
  rw [h2]
  decide

/-! ## Crawl provenance -/

/-- Every record produced by `processCards` is `process_card` of one of
the page's cards. -/
lemma processCards_mem {site : Site} {u : Chars} {cat : Option Chars}
    {cards : List BookCard} {recs : List BookRecord}
    (h : processCards site u cat cards = some recs) :
    ∀ r ∈ recs, ∃ card ∈ cards, r = process_card site u cat card := by
  induction cards generalizing recs with
  | nil =>
    simp only [processCards, Option.some.injEq] at h
    subst h
    simp
  | cons card rest ih =>
    simp only [processCards] at h
    split at h
    · exact Option.noConfusion h
    · cases hrec : processCards site u cat rest with
      | none => rw [hrec] at h; exact Option.noConfusion h
      | some rs =>
        rw [hrec] at h
        simp only [Option.some.injEq] at h
        subst h
        intro r hr
        rcases List.mem_cons.mp hr with h1 | h2
        · exact ⟨card, List.mem_cons_self _ _, h1⟩
        · obtain ⟨c', hc', he'⟩ := ih hrec r h2
          exact ⟨c', List.mem_cons_of_mem _ hc', he'⟩

/-- Every record returned by the page loop either was already in the
accumulator or is `process_card` of a card of some successfully loaded
listing page. -/
lemma get_books_loop_provenance (site : Site) :
    ∀ fuel url acc books, get_books_loop site fuel url acc = .ok books →
      ∀ b ∈ books, b ∈ acc ∨
        ∃ page_url pg card, site.listing page_url = some pg ∧
          card ∈ pg.cards ∧ b = process_card site page_url pg.h1 card := by
  intro fuel
  induction fuel with
  | zero =>
    intro url acc books h
    exact absurd h (by simp [get_books_loop])
  | succ n ih =>
    intro url acc books h
    simp only [get_books_loop] at h
    split at h
    · exact absurd h (by simp)
    · rename_i pg hl
      split at h
      · exact absurd h (by simp)
      · rename_i recs hp
        have hmem : ∀ b ∈ acc ++ recs, b ∈ acc ∨
            ∃ page_url pg' card, site.listing page_url = some pg' ∧
              card ∈ pg'.cards ∧ b = process_card site page_url pg'.h1 card := by
          intro b hb
          rcases List.mem_append.mp hb with h1 | h2
          · exact Or.inl h1
          · obtain ⟨card, hc, he⟩ := processCards_mem hp b h2
            exact Or.inr ⟨url, pg, card, hl, hc, he⟩
        split at h
        · intro b hb
          rcases ih _ _ _ h b hb with hacc | hexists
          · exact hmem b hacc
          · exact Or.inr hexists
        · simp only [CrawlOutcome.ok.injEq] at h
          subst h
          exact hmem

/-- The `product_page` field of a processed card. -/
lemma process_card_product_page (site : Site) (pu : Chars)
    (cat : Option Chars) (card : BookCard) :
    (process_card site pu cat card).product_page = cardProductPage pu card := by
  cases hcp : cardProductPage pu card with
  | none => simp only [process_card, hcp]
  | some u =>
    cases hsp : site.product u with
    | none => simp only [process_card, hcp, hsp]
    | some psoup => simp only [process_card, hcp, hsp]

/-- A card with no product link keeps the default `availability = False`. -/
lemma process_card_availability_none (site : Site) (pu : Chars)
    (cat : Option Chars) (card : BookCard)
    (h : cardProductPage pu card = none) :
    (process_card site pu cat card).availability = false := by
  simp only [process_card, h]

/-- A card whose detail page load raises keeps the default
`availability = False`. -/
lemma process_card_availability_prod_none (site : Site) (pu : Chars)
    (cat : Option Chars) (card : BookCard) (u : Chars)
    (hcp : cardProductPage pu card = some u) (h : site.product u = none) :
    (process_card site pu cat card).availability = false := by
  simp only [process_card, hcp, h]

/-! ## Claim C10: availability is always a boolean -/

/-- Claim C10: every record produced by the category crawl carries a
boolean `availability` — `False` by default, in particular when the card
has no product link or the detail page load raises — never `None`; hence
the CSV writer renders its availability column as `yes` or `no`, never as
the empty string. -/
theorem get_books_availability_boolean (site : Site) (fuel : Nat)
    (href : Chars) (books : List BookRecord) (frepr : ℚ → Chars)
    (h : get_books site fuel href = .ok books) :
    ∀ b ∈ books,
      (toPyBook b).availability = some b.availability ∧
      ((render_row frepr (toPyBook b))[6]? = some ("yes".data) ∨
        (render_row frepr (toPyBook b))[6]? = some ("no".data)) ∧
      (render_row frepr (toPyBook b))[6]? ≠ some [] ∧
      (b.product_page = none → b.availability = false) ∧
      (∀ u, b.product_page = some u → site.product u = none →
        b.availability = false) := by
  intro b hb
  rcases get_books_loop_provenance site fuel _ [] books h b hb with
    habs | ⟨pu, pg, card, _, _, hbe⟩
  · exact absurd habs (List.not_mem_nil b)
  refine ⟨rfl, ?_, ?_, ?_, ?_⟩
  · cases hav : b.availability
    · exact Or.inr (by simp [render_row, toPyBook, hav])
    · exact Or.inl (by simp [render_row, toPyBook, hav])
  · cases hav : b.availability <;> simp [render_row, toPyBook, hav]
  · intro hpp
    subst hbe
    rw [process_card_product_page] at hpp
    exact process_card_availability_none site pu pg.h1 card hpp
  · intro u hpp hprod
    subst hbe
    rw [process_card_product_page] at hpp
    exact process_card_availability_prod_none site pu pg.h1 card u hpp hprod

/-- Witness for C10: the one-book crawl of the fixture site yields a
record whose availability column renders as `no`. -/
theorem get_books_availability_boolean_witness :
    (render_row (fun _ => [])
      (toPyBook ⟨none, none, none, some ("B".data), none, none, false,
        none⟩))[6]? = some ("no".data) := by
  have h := get_books_availability_boolean siteAB 1 ("b".data)
    [⟨none, none, none, some ("B".data), none, none, false, none⟩]
    (fun _ => []) (by decide)
  have hb := h ⟨none, none, none, some ("B".data), none, none, false, none⟩
    (by simp)
  rcases hb.2.1 with h1 | h1
  · exact absurd h1 (by decide)
  · exact h1

/-! ## Claim C8: pagination termination -/

/-- Claim C8: the page loop of `get_books` terminates exactly when a page
has no truthy `next` href. First part: one loop iteration on a loaded
page either continues at the resolved next URL (when a `next` href is
present) or returns the materialised record list (when it is absent).
Second part: on any finite chain of pages whose last page lacks a `next`
link, the loop returns the concatenation of all pages' records, for every
fuel bound larger than the chain. -/
theorem get_books_pagination (site : Site) :
    (∀ fuel url acc pg recs, site.listing url = some pg →
      processCards site url pg.h1 pg.cards = some recs →
      ((∀ h, pageNext pg = some h →
          get_books_loop site (fuel + 1) url acc =
            get_books_loop site fuel (urljoin url h) (acc ++ recs)) ∧
        (pageNext pg = none →
          get_books_loop site (fuel + 1) url acc = .ok (acc ++ recs)))) ∧
    (∀ chain u r, ChainOK site ((u, r) :: chain) →
      ∀ fuel acc, chain.length + 1 ≤ fuel →
        get_books_loop site fuel u acc =
          .ok (acc ++ (((u, r) :: chain).map Prod.snd).flatten)) := by
  constructor
  · intro fuel url acc pg recs hl hp
    constructor
    · intro h hn
      simp only [get_books_loop, hl, hp, hn]
    · intro hn
      simp only [get_books_loop, hl, hp, hn]
  · intro chain
    induction chain with
    | nil =>
      intro u r hok fuel acc hf
      obtain ⟨pg, hl, hp, hn⟩ := hok
      obtain ⟨m, rfl⟩ : ∃ m, fuel = m + 1 := ⟨fuel - 1, by omega⟩
      simp only [get_books_loop, hl, hp, hn, List.map_cons, List.map_nil,
        List.flatten_cons, List.flatten_nil, List.append_nil]
    | cons e rest ih =>
      intro u r hok fuel acc hf
      obtain ⟨u', r'⟩ := e
      obtain ⟨pg, hl, hp, h, hnx, hu', hchain⟩ := hok
      obtain ⟨m, rfl⟩ : ∃ m, fuel = m + 1 :=
        ⟨fuel - 1, by simp at hf; omega⟩
      simp only [get_books_loop, hl, hp, hnx]
      rw [← hu']
      rw [ih u' r' hchain m (acc ++ r) (by simp at hf ⊢; omega)]
      simp [List.flatten]

/-- Witness for C8 on the concrete two-page chain: the loop follows the
`next` link of page one and stops on page two, materialising all three
records. -/
theorem get_books_pagination_witness :
    (get_books_loop siteChain 2 ("http://e/p1".data) [] =
      get_books_loop siteChain 1 (urljoin ("http://e/p1".data) ("p2".data))
        ([] ++ [bookT])) ∧
    get_books_loop siteChain 2 ("http://e/p1".data) [] =
      .ok ([] ++ (([("http://e/p1".data, [bookT]),
        ("http://e/p2".data, [bookT, bookT])].map Prod.snd).flatten)) := by
  constructor
  · exact ((get_books_pagination siteChain).1 1 ("http://e/p1".data) []
      pageOne [bookT] (by decide) (by decide)).1 ("p2".data) (by decide)
  · exact (get_books_pagination siteChain).2
      [("http://e/p2".data, [bookT, bookT])] ("http://e/p1".data) [bookT]
      ⟨pageOne, by decide, by decide, "p2".data, by decide, by decide,
        pageTwo, by decide, by decide, by decide⟩ 2 [] (by decide)

/-! ## URL resolution lemmas (towards claim C7) -/

lemma dropWhile_append_stop (p : Char → Bool) (a b : Chars)
    (hb : ∀ c, b.head? = some c → p c = false) :
    (a ++ b).dropWhile p = a.dropWhile p ++ b := by
  induction a with
  | nil =>
    simp only [List.nil_append, List.dropWhile_nil]
    cases b with
    | nil => rfl
    | cons c t => exact List.dropWhile_cons_of_neg (by simp [hb c rfl])
  | cons c a' ih =>
    by_cases hc : p c
    · simp only [List.cons_append, List.dropWhile_cons_of_pos hc, ih]
    · simp only [List.cons_append, List.dropWhile_cons_of_neg hc]

lemma filter_all_append (q : Char → Bool) (a b : Chars)
    (ha : ∀ c ∈ a, q c = true) :
    (a ++ b).filter q = a ++ b.filter q := by
  rw [List.filter_append, List.filter_eq_self.mpr ha]

/-- `cleanUrl` keeps a nonempty prefix of characters that are above the
space character and are not tab/CR/LF, shrinking only the remainder. -/
lemma cleanUrl_hard_lead (s l : Chars) (hs : s ≠ [])
    (hhard : ∀ c ∈ s, ¬ c ≤ ' ' ∧ c ≠ '\t' ∧ c ≠ '\r' ∧ c ≠ '\n') :
    ∃ r, cleanUrl (s ++ l) = s ++ r := by
  unfold cleanUrl
  have h1 : (s ++ l).dropWhile (fun c => decide (c ≤ ' ')) = s ++ l := by
    cases s with
    | nil => exact absurd rfl hs
    | cons c s' =>
      exact List.dropWhile_cons_of_neg
        (by simp [(hhard c (List.mem_cons_self _ _)).1])
  rw [h1]
  have h2 : (s ++ l).reverse.dropWhile (fun c => decide (c ≤ ' ')) =
      l.reverse.dropWhile (fun c => decide (c ≤ ' ')) ++ s.reverse := by
    rw [List.reverse_append]
    apply dropWhile_append_stop
    intro c hc
    have hmem : c ∈ s := by
      have := mem_of_head? hc
      rwa [List.mem_reverse] at this
    simp [(hhard c hmem).1]
  rw [h2]
  rw [List.reverse_append, List.reverse_reverse]
  rw [filter_all_append _ s _ (fun c hc => by
    obtain ⟨-, h3, h4, h5⟩ := hhard c hc
    simp [h3, h4, h5])]
  exact ⟨_, rfl⟩

lemma splitFirst_append (sep : Char) (a b : Chars) (ha : sep ∉ a) :
    splitFirst sep (a ++ sep :: b) = some (a, b) := by
  induction a with
  | nil => simp [splitFirst]
  | cons c a' ih =>
    have hc : c ≠ sep := fun he => ha (he ▸ List.mem_cons_self _ _)
    simp only [List.cons_append, splitFirst, if_neg hc, List.append_eq,
      ih (fun hm => ha (List.mem_cons_of_mem _ hm)), Option.map_some']

lemma splitFirst_eq_some {sep : Char} {l a b : Chars}
    (h : splitFirst sep l = some (a, b)) : l = a ++ sep :: b ∧ sep ∉ a := by
  induction l generalizing a with
  | nil => exact absurd h (by simp [splitFirst])
  | cons c t ih =>
    simp only [splitFirst] at h
    by_cases hc : c = sep
    · rw [if_pos hc] at h
      simp only [Option.some.injEq, Prod.mk.injEq] at h
      obtain ⟨h1, h2⟩ := h
      subst h1
      subst h2
      simp [hc]
    · rw [if_neg hc] at h
      cases hrec : splitFirst sep t with
      | none => rw [hrec] at h; exact Option.noConfusion h
      | some p =>
        rw [hrec] at h
        obtain ⟨p1, p2⟩ := p
        simp only [Option.map_some', Option.some.injEq, Prod.mk.injEq] at h
        obtain ⟨h1, h2⟩ := h
        subst h2
        obtain ⟨ht, hna⟩ := ih hrec
        subst ht
        constructor
        · rw [← h1]
          simp
        · rw [← h1]
          intro hm
          rcases List.mem_cons.mp hm with he | hm2
          · exact hc he.symm
          · exact hna hm2

lemma splitFirst_eq_none {sep : Char} {l : Chars}
    (h : splitFirst sep l = none) : sep ∉ l := by
  induction l with
  | nil => simp
  | cons c t ih =>
    simp only [splitFirst] at h
    by_cases hc : c = sep
    · rw [if_pos hc] at h; exact Option.noConfusion h
    · rw [if_neg hc] at h
      intro hm
      rcases List.mem_cons.mp hm with he | hm2
      · exact hc he.symm
      · exact ih (by cases hrec : splitFirst sep t with
          | none => rfl
          | some p => rw [hrec] at h; exact Option.noConfusion h) hm2

lemma toLower_isAlpha {c : Char} (h : c.isAlpha = true) :
    c.toLower.isAlpha = true := by
  rcases (isAlpha_iff c).mp h with h2 | h2
  · have h3 := toLower_of_upper c h2
    exact (isAlpha_iff _).mpr (Or.inr (by omega))
  · rw [toLower_of_not_upper c (by omega)]
    exact h

lemma toLower_schemeChar {c : Char} (h : schemeChar c = true) :
    schemeChar c.toLower = true := by
  simp only [schemeChar, Bool.or_eq_true, decide_eq_true_iff] at h ⊢
  rcases h with (((ha | hd) | hp) | hm) | hdot
  · exact Or.inl (Or.inl (Or.inl (Or.inl (toLower_isAlpha ha))))
  · rw [digit_toLower hd]
    exact Or.inl (Or.inl (Or.inl (Or.inr hd)))
  · subst hp; decide
  · subst hm; decide
  · subst hdot; decide

lemma lowerChars_eq_cons {s : Chars} {x : Char} {xs : Chars}
    (h : lowerChars s = x :: xs) :
    ∃ c s', s = c :: s' ∧ c.toLower = x ∧ lowerChars s' = xs := by
  cases s with
  | nil => exact absurd h (by simp [lowerChars])
  | cons c s' =>
    simp only [lowerChars, List.map_cons, List.cons.injEq] at h
    exact ⟨c, s', rfl, h.1, h.2⟩

/-- Scheme detection in `urlsplit`: a literal `scheme:` prefix of valid
shape is found and lowercased, whatever the default. -/
lemma urlsplit_scheme_detect (s rest d : Chars) (hne : s ≠ [])
    (halpha : (s.headD ' ').isAlpha = true)
    (hsch : ∀ c ∈ s, schemeChar c = true) :
    (urlsplit (s ++ ':' :: rest) d).scheme = lowerChars s := by
  have hhard : ∀ c ∈ s ++ [':'], ¬ c ≤ ' ' ∧ c ≠ '\t' ∧ c ≠ '\r' ∧ c ≠ '\n' := by
    intro c hc
    rcases List.mem_append.mp hc with hc1 | hc2
    · obtain ⟨h1, _, h3, h4, h5⟩ := schemeChar_facts (hsch c hc1)
      exact ⟨h1, h3, h4, h5⟩
    · simp only [List.mem_singleton] at hc2
      subst hc2
      exact ⟨by decide, by decide, by decide, by decide⟩
  obtain ⟨r, hcl⟩ := cleanUrl_hard_lead (s ++ [':']) rest (by simp) hhard
  have hcl2 : cleanUrl (s ++ ':' :: rest) = s ++ ':' :: r := by
    have he : s ++ ':' :: rest = (s ++ [':']) ++ rest := by simp
    rw [he, hcl]
    simp
  have hcolon : ':' ∉ s := fun hm => (schemeChar_facts (hsch _ hm)).2.1 rfl
  have hsp : splitFirst ':' (cleanUrl (s ++ ':' :: rest)) = some (s, r) := by
    rw [hcl2]
    exact splitFirst_append ':' s r hcolon
  simp only [urlsplit, hsp,
    if_pos (⟨hne, halpha, List.all_eq_true.mpr hsch⟩ :
      s ≠ [] ∧ (s.headD ' ').isAlpha = true ∧ s.all schemeChar = true)]

/-- The scheme `urlsplit` returns is the default or a well-shaped detected
scheme, and detection does not depend on the default. -/
lemma urlsplit_scheme_cases (u d : Chars) :
    ((urlsplit u d).scheme = d ∧ (urlsplit u []).scheme = []) ∨
    ((urlsplit u d).scheme = (urlsplit u []).scheme ∧
      SchemeShape ((urlsplit u d).scheme)) := by
  cases hsp : splitFirst ':' (cleanUrl u) with
  | none =>
    left
    constructor <;> simp only [urlsplit, hsp]
  | some p =>
    obtain ⟨pre, post⟩ := p
    by_cases hcond : pre ≠ [] ∧ (pre.headD ' ').isAlpha = true ∧
        pre.all schemeChar = true
    · right
      constructor
      · simp only [urlsplit, hsp, if_pos hcond]
      · simp only [urlsplit, hsp, if_pos hcond]
        obtain ⟨h1, h2, h3⟩ := hcond
        refine ⟨by simpa [lowerChars] using h1, ?_, ?_⟩
        · cases pre with
          | nil => exact absurd rfl h1
          | cons c pre' =>
            simpa [lowerChars] using toLower_isAlpha (by simpa using h2)
        · intro c hc
          obtain ⟨c', hc', he⟩ := List.mem_map.mp hc
          rw [← he]
          exact toLower_schemeChar (List.all_eq_true.mp h3 c' hc')
    · left
      constructor <;> simp only [urlsplit, hsp, if_neg hcond]

/-- When the scheme is nonempty, `urlunsplit` output starts with
`scheme:`. -/
lemma urlunsplit_shape (p : UrlParts) (h : p.scheme ≠ []) :
    ∃ rest, urlunsplit p = p.scheme ++ ':' :: rest := by
  simp only [urlunsplit, if_pos h]
  split
  · split
    · exact ⟨_, by rw [List.append_assoc, List.append_assoc, List.cons_append]⟩
    · exact ⟨_, by rw [List.append_assoc, List.cons_append]⟩
  · split
    · exact ⟨_, by rw [List.append_assoc, List.cons_append]⟩
    · exact ⟨_, rfl⟩

lemma splitTail_fst_subset (sep : Char) (l : Chars) :
    ∀ c ∈ (splitTail sep l).1, c ∈ l := by
  unfold splitTail
  cases hf : splitFirst sep l with
  | none => simp
  | some p =>
    obtain ⟨a, b⟩ := p
    obtain ⟨he, -⟩ := splitFirst_eq_some hf
    subst he
    simp only
    intro c hc
    simp [hc]

lemma splitTail_snd_subset (sep : Char) (l : Chars) :
    ∀ c ∈ (splitTail sep l).2, c ∈ l := by
  unfold splitTail
  cases hf : splitFirst sep l with
  | none => simp
  | some p =>
    obtain ⟨a, b⟩ := p
    obtain ⟨he, -⟩ := splitFirst_eq_some hf
    subst he
    simp only
    intro c hc
    simp [hc]

lemma splitTail_fst_no_sep (sep : Char) (l : Chars) :
    sep ∉ (splitTail sep l).1 := by
  unfold splitTail
  cases hf : splitFirst sep l with
  | none => exact splitFirst_eq_none hf
  | some p =>
    obtain ⟨a, b⟩ := p
    exact (splitFirst_eq_some hf).2

lemma splitNetloc_fst_no_end {l : Chars} {c : Char}
    (h : c ∈ (splitNetloc l).1) : netlocEnd c = false := by
  unfold splitNetloc at h
  split at h
  · simpa using List.mem_takeWhile_imp h
  · exact absurd h (List.not_mem_nil c)

/-- No component except the fragment returned by `urlsplit` contains a
`#`, provided the default scheme does not. -/
lemma urlsplit_no_hash (u d : Chars) (hd : '#' ∉ d) :
    '#' ∉ (urlsplit u d).scheme ∧ '#' ∉ (urlsplit u d).netloc ∧
    '#' ∉ (urlsplit u d).path ∧ '#' ∉ (urlsplit u d).query := by
  refine ⟨?_, ?_, ?_, ?_⟩
  · rcases urlsplit_scheme_cases u d with ⟨h1, -⟩ | ⟨-, hshape⟩
    · rw [h1]; exact hd
    · intro hm
      exact absurd (hshape.2.2 '#' hm) (by decide)
  · simp only [urlsplit]
    intro hm
    exact absurd (splitNetloc_fst_no_end hm) (by decide)
  · simp only [urlsplit]
    intro hm
    exact splitTail_fst_no_sep '#' _ (splitTail_fst_subset '?' _ _ hm)
  · simp only [urlsplit]
    intro hm
    exact splitTail_fst_no_sep '#' _ (splitTail_snd_subset '?' _ _ hm)

/-- `urlunsplit` of `#`-free components with an empty fragment is a
`#`-free string. -/
lemma urlunsplit_no_hash (p : UrlParts) (hs : '#' ∉ p.scheme)
    (hn : '#' ∉ p.netloc) (hp : '#' ∉ p.path) (hq : '#' ∉ p.query)
    (hf : p.fragment = []) : '#' ∉ urlunsplit p := by
  have hfneg : ¬ p.fragment ≠ [] := fun hc => hc hf
  simp only [urlunsplit, if_neg hfneg]
  intro hm
  have hnoturl : ∀ x ∈ (if p.netloc ≠ [] ∨ p.path.take 2 = ['/', '/'] then
      '/' :: '/' :: (p.netloc ++
        if p.path ≠ [] ∧ p.path.head? ≠ some '/' then '/' :: p.path
        else p.path)
      else p.path), x ≠ '#' := by
    intro x hx
    split at hx
    · rcases List.mem_cons.mp hx with he | hx2
      · subst he; decide
      · rcases List.mem_cons.mp hx2 with he | hx3
        · subst he; decide
        · rcases List.mem_append.mp hx3 with hx4 | hx5
          · exact fun he => hn (he ▸ hx4)
          · split at hx5
            · rcases List.mem_cons.mp hx5 with he | hx6
              · subst he; decide
              · exact fun he => hp (he ▸ hx6)
            · exact fun he => hp (he ▸ hx5)
    · exact fun he => hp (he ▸ hx)
  split at hm
  · split at hm
    · rcases List.mem_append.mp hm with h1 | h2
      · rcases List.mem_append.mp h1 with h3 | h4
        · exact hs h3
        · rcases List.mem_cons.mp h4 with he | h5
          · exact absurd he.symm (by decide)
          · exact hnoturl '#' h5 rfl
      · rcases List.mem_cons.mp h2 with he | h6
        · exact absurd he.symm (by decide)
        · exact hq h6
    · rcases List.mem_append.mp hm with h1 | h2
      · exact hnoturl '#' h1 rfl
      · rcases List.mem_cons.mp h2 with he | h6
        · exact absurd he.symm (by decide)
        · exact hq h6
  · split at hm
    · rcases List.mem_append.mp hm with h3 | h4
      · exact hs h3
      · rcases List.mem_cons.mp h4 with he | h5
        · exact absurd he.symm (by decide)
        · exact hnoturl '#' h5 rfl
    · exact hnoturl '#' hm rfl

/-- Claim C7 groundwork: the first component of `urldefrag` never
contains a `#`. -/
lemma urldefrag_no_hash (u : Chars) : '#' ∉ (urldefrag u).1 := by
  unfold urldefrag
  split
  · obtain ⟨h1, h2, h3, h4⟩ := urlsplit_no_hash u [] (by simp)
    exact urlunsplit_no_hash
      ⟨(urlsplit u []).scheme, (urlsplit u []).netloc, (urlsplit u []).path,
        (urlsplit u []).query, []⟩ h1 h2 h3 h4 rfl
  · rename_i hni
    exact hni

/-- `urlunsplit` of a well-shaped scheme parses back as absolute. -/
lemma urlunsplit_hasScheme (p : UrlParts) (h : SchemeShape p.scheme) :
    hasScheme (urlunsplit p) = true := by
  obtain ⟨rest, hr⟩ := urlunsplit_shape p h.1
  rw [hr]
  simp only [hasScheme, ne_eq, decide_eq_true_eq]
  rw [urlsplit_scheme_detect p.scheme rest [] h.1 h.2.1 h.2.2]
  simp only [lowerChars, ne_eq, List.map_eq_nil_iff]
  exact h.1

/-- `urldefrag` preserves the presence of a scheme. -/
lemma urldefrag_hasScheme {u : Chars} (h : hasScheme u = true) :
    hasScheme (urldefrag u).1 = true := by
  unfold urldefrag
  split
  · simp only [hasScheme, ne_eq, decide_eq_true_eq] at h
    rcases urlsplit_scheme_cases u [] with ⟨-, h2⟩ | ⟨-, hshape⟩
    · exact absurd h2 h
    · exact urlunsplit_hasScheme
        ⟨(urlsplit u []).scheme, (urlsplit u []).netloc, (urlsplit u []).path,
          (urlsplit u []).query, []⟩ hshape
  · exact h

/-- `schemeChar` holds for any letter. -/
lemma alpha_schemeChar {c : Char} (h : c.isAlpha = true) :
    schemeChar c = true := by
  simp [schemeChar, h]

/-- A URL reachable through a session adapter parses with scheme `http`
or `https`, whatever the default scheme. -/
lemma fetchable_scheme {base d : Chars} (hb : fetchableUrl base = true) :
    (urlsplit base d).scheme = "http".data ∨
    (urlsplit base d).scheme = "https".data := by
  simp only [fetchableUrl, Bool.or_eq_true] at hb
  rcases hb with h | h
  · left
    rw [List.isPrefixOf_iff_prefix] at h
    obtain ⟨tl, htl⟩ := h
    have hexp : lowerChars base = 'h' :: 't' :: 't' :: 'p' :: ':' :: '/' :: '/' :: tl := by
      rw [← htl]; rfl
    obtain ⟨c0, s1, rfl, hc0, h1⟩ := lowerChars_eq_cons hexp
    obtain ⟨c1, s2, rfl, hc1, h2⟩ := lowerChars_eq_cons h1
    obtain ⟨c2, s3, rfl, hc2, h3⟩ := lowerChars_eq_cons h2
    obtain ⟨c3, s4, rfl, hc3, h4⟩ := lowerChars_eq_cons h3
    obtain ⟨c4, s5, rfl, hc4, h5⟩ := lowerChars_eq_cons h4
    have hcolon : c4 = ':' := eq_of_toLower_eq_nonletter (by decide) hc4
    subst hcolon
    have ha0 := isAlpha_of_toLower_letter (by decide) hc0
    have ha1 := isAlpha_of_toLower_letter (by decide) hc1
    have ha2 := isAlpha_of_toLower_letter (by decide) hc2
    have ha3 := isAlpha_of_toLower_letter (by decide) hc3
    have hj : c0 :: c1 :: c2 :: c3 :: ':' :: s5 =
        [c0, c1, c2, c3] ++ ':' :: s5 := rfl
    rw [hj, urlsplit_scheme_detect [c0, c1, c2, c3] s5 d (by simp)
      (by simpa using ha0)
      (by intro c hc
          rcases List.mem_cons.mp hc with rfl | hc
          · exact alpha_schemeChar ha0
          rcases List.mem_cons.mp hc with rfl | hc
          · exact alpha_schemeChar ha1
          rcases List.mem_cons.mp hc with rfl | hc
          · exact alpha_schemeChar ha2
          rcases List.mem_cons.mp hc with rfl | hc
          · exact alpha_schemeChar ha3
          · exact absurd hc (List.not_mem_nil c))]
    simp [lowerChars, hc0, hc1, hc2, hc3]
  · right
    rw [List.isPrefixOf_iff_prefix] at h
    obtain ⟨tl, htl⟩ := h
    have hexp : lowerChars base =
        'h' :: 't' :: 't' :: 'p' :: 's' :: ':' :: '/' :: '/' :: tl := by
      rw [← htl]; rfl
    obtain ⟨c0, s1, rfl, hc0, h1⟩ := lowerChars_eq_cons hexp
    obtain ⟨c1, s2, rfl, hc1, h2⟩ := lowerChars_eq_cons h1
    obtain ⟨c2, s3, rfl, hc2, h3⟩ := lowerChars_eq_cons h2
    obtain ⟨c3, s4, rfl, hc3, h4⟩ := lowerChars_eq_cons h3
    obtain ⟨c4, s5, rfl, hc4, h5⟩ := lowerChars_eq_cons h4
    obtain ⟨c5, s6, rfl, hc5, h6⟩ := lowerChars_eq_cons h5
    have hcolon : c5 = ':' := eq_of_toLower_eq_nonletter (by decide) hc5
    subst hcolon
    have ha0 := isAlpha_of_toLower_letter (by decide) hc0
    have ha1 := isAlpha_of_toLower_letter (by decide) hc1
    have ha2 := isAlpha_of_toLower_letter (by decide) hc2
    have ha3 := isAlpha_of_toLower_letter (by decide) hc3
    have ha4 := isAlpha_of_toLower_letter (by decide) hc4
    have hj : c0 :: c1 :: c2 :: c3 :: c4 :: ':' :: s6 =
        [c0, c1, c2, c3, c4] ++ ':' :: s6 := rfl
    rw [hj, urlsplit_scheme_detect [c0, c1, c2, c3, c4] s6 d (by simp)
      (by simpa using ha0)
      (by intro c hc
          rcases List.mem_cons.mp hc with rfl | hc
          · exact alpha_schemeChar ha0
          rcases List.mem_cons.mp hc with rfl | hc
          · exact alpha_schemeChar ha1
          rcases List.mem_cons.mp hc with rfl | hc
          · exact alpha_schemeChar ha2
          rcases List.mem_cons.mp hc with rfl | hc
          · exact alpha_schemeChar ha3
          rcases List.mem_cons.mp hc with rfl | hc
          · exact alpha_schemeChar ha4
          · exact absurd hc (List.not_mem_nil c))]
    simp [lowerChars, hc0, hc1, hc2, hc3, hc4]

/-- Joining any reference against a fetchable (`http(s)://`) base URL
yields an absolute URL. -/
lemma urljoin_hasScheme {base u : Chars} (hb : fetchableUrl base = true) :
    hasScheme (urljoin base u) = true := by
  have hbne : base ≠ [] := by
    intro he
    subst he
    exact absurd hb (by decide)
  have hbasescheme : hasScheme base = true := by
    simp only [hasScheme, ne_eq, decide_eq_true_eq]
    rcases fetchable_scheme (d := ([] : Chars)) hb with h | h <;> rw [h] <;>
      decide
  simp only [urljoin, if_neg hbne]
  split
  · exact hbasescheme
  · have hbs := fetchable_scheme (d := ([] : Chars)) hb
    have hbshape : SchemeShape ((urlsplit base []).scheme) := by
      rcases hbs with h | h <;> rw [h] <;>
        exact ⟨by decide, by decide, by decide⟩
    have hbrel : (urlsplit base []).scheme ∈ usesRelative := by
      rcases hbs with h | h <;> rw [h] <;> decide
    split
    · rename_i hcond
      have hne : (urlsplit u ((urlsplit base []).scheme)).scheme ≠
          (urlsplit base []).scheme := by
        rcases hcond with hc | hc
        · exact hc
        · intro he
          rw [he] at hc
          exact hc hbrel
      rcases urlsplit_scheme_cases u ((urlsplit base []).scheme) with
        ⟨h1, -⟩ | ⟨h1, hshape⟩
      · exact absurd h1 hne
      · simp only [hasScheme, ne_eq, decide_eq_true_eq]
        rw [← h1]
        exact hshape.1
    · rename_i hcond
      push_neg at hcond
      obtain ⟨heq, -⟩ := hcond
      have hushape : SchemeShape
          ((urlsplit u ((urlsplit base []).scheme)).scheme) := by
        rw [heq]
        exact hbshape
      split
      · exact urlunsplit_hasScheme _ hushape
      · split
        · exact urlunsplit_hasScheme _ hushape
        · exact urlunsplit_hasScheme _ hushape

/-! ## Claim C7: product page URLs are absolute and fragment-free -/

/-- A card's product page is absent or `urldefrag` of `urljoin` of its
href. -/
lemma cardProductPage_cases (page_url : Chars) (card : BookCard) :
    cardProductPage page_url card = none ∨
    ∃ h, cardProductPage page_url card =
      some (urldefrag (urljoin page_url h)).1 := by
  unfold cardProductPage
  split
  · split
    · split
      · exact Or.inr ⟨_, rfl⟩
      · exact Or.inl rfl
    · exact Or.inl rfl
  · exact Or.inl rfl

/-- Claim C7: under a well-formed session oracle (pages only load from
`http(s)://` URLs, as `create_session` mounts adapters only for those
prefixes), every record produced by the category crawl has a
`product_page` that is `None` or an absolute (scheme-carrying),
fragment-free URL. -/
theorem get_books_product_page_absolute (site : Site) (hwf : Site.WF site)
    (fuel : Nat) (href : Chars) (books : List BookRecord)
    (h : get_books site fuel href = .ok books) :
    ∀ b ∈ books, b.product_page = none ∨
      ∃ u, b.product_page = some u ∧ hasScheme u = true ∧ '#' ∉ u := by
  intro b hb
  rcases get_books_loop_provenance site fuel _ [] books h b hb with
    habs | ⟨pu, pg, card, hl, -, hbe⟩
  · exact absurd habs (List.not_mem_nil b)
  subst hbe
  have hfetch : fetchableUrl pu = true :=
    hwf pu (by rw [hl]; exact fun hc => Option.noConfusion hc)
  rcases cardProductPage_cases pu card with hc | ⟨hrf, hc⟩
  · exact Or.inl (by rw [process_card_product_page, hc])
  · right
    refine ⟨(urldefrag (urljoin pu hrf)).1,
      by rw [process_card_product_page, hc], ?_, ?_⟩
    · exact urldefrag_hasScheme (urljoin_hasScheme hfetch)
    · exact urldefrag_no_hash _

/-- Witness for C7: crawling the concrete one-page site resolves the
card's `b.html#frag` href to the absolute, fragment-free
`http://e/b.html`. -/
theorem get_books_product_page_absolute_witness :
    hasScheme ("http://e/b.html".data) = true ∧
    '#' ∉ ("http://e/b.html".data) := by
  have hwf : Site.WF siteLink := by
    intro u hu
    by_cases he : u = ("http://e/p1".data)
    · subst he
      decide
    · exfalso
      apply hu
      simp only [siteLink, if_neg he]
  have h := get_books_product_page_absolute siteLink hwf 1
    ("http://e/p1".data)
    [⟨some ("A Book".data), none, none, some ("T".data), none,
      some ("http://e/b.html".data), false, none⟩] (by decide)
  have hb := h ⟨some ("A Book".data), none, none, some ("T".data), none,
      some ("http://e/b.html".data), false, none⟩ (by simp)
  rcases hb with h1 | ⟨u, hu, h2, h3⟩
  · exact absurd h1 (by decide)
  · have he : ("http://e/b.html".data) = u := by simpa using hu
    rw [← he] at h2 h3
    exact ⟨h2, h3⟩

/-! ## Claim C1: the availability-text fallback chain -/

lemma takeWhile_all_append (p : Char → Bool) (a b : Chars)
    (ha : ∀ c ∈ a, p c = true) :
    (a ++ b).takeWhile p = a ++ b.takeWhile p := by
  induction a with
  | nil => simp
  | cons c a' ih =>
    simp only [List.cons_append,
      List.takeWhile_cons_of_pos (ha c (List.mem_cons_self _ _)),
      List.cons.injEq, true_and]
    exact ih (fun d hd => ha d (List.mem_cons_of_mem _ hd))

lemma dropWhile_all_append (p : Char → Bool) (a b : Chars)
    (ha : ∀ c ∈ a, p c = true) :
    (a ++ b).dropWhile p = b.dropWhile p := by
  induction a with
  | nil => simp
  | cons c a' ih =>
    simp only [List.cons_append,
      List.dropWhile_cons_of_pos (ha c (List.mem_cons_self _ _))]
    exact ih (fun d hd => ha d (List.mem_cons_of_mem _ hd))

lemma takeWhile_head_neg (p : Char → Bool) (b : Chars)
    (hb : ∀ c, b.head? = some c → p c = false) :
    b.takeWhile p = [] := by
  cases b with
  | nil => rfl
  | cons c t => exact List.takeWhile_cons_of_neg (by simp [hb c rfl])

lemma dropWhile_head_neg (p : Char → Bool) (b : Chars)
    (hb : ∀ c, b.head? = some c → p c = false) :
    b.dropWhile p = b := by
  cases b with
  | nil => rfl
  | cons c t => exact List.dropWhile_cons_of_neg (by simp [hb c rfl])

lemma not_digit_of_toLower {c x : Char} (hx : x.isDigit = false)
    (h : c.toLower = x) : c.isDigit = false := by
  by_cases hd : c.isDigit = true
  · rw [digit_toLower hd] at h
    subst h
    exact hx
  · simpa using hd

lemma not_space_of_toLower {c x : Char} (hx : isSpaceP x = false)
    (h : c.toLower = x) : isSpaceP c = false := by
  by_cases hs : isSpaceP c = true
  · rw [space_toLower hs] at h
    subst h
    exact hx
  · simpa using hs

lemma space_not_digit {c : Char} (h : isSpaceP c = true) :
    c.isDigit = false := by
  simp only [isSpaceP, Bool.or_eq_true, decide_eq_true_iff] at h
  rcases h with ((((h | h) | h) | h) | h) | h <;> subst h <;> decide

lemma stripCI_append {pat av r : Chars} (hav : lowerChars av = pat) :
    stripCI pat (av ++ r) = some r := by
  induction av generalizing pat with
  | nil =>
    simp only [lowerChars, List.map_nil] at hav
    subst hav
    rfl
  | cons c av' ih =>
    simp only [lowerChars, List.map_cons] at hav
    subst hav
    simp only [List.cons_append, stripCI, if_pos rfl]
    exact ih rfl

lemma stripCI_some {pat l r : Chars} (h : stripCI pat l = some r) :
    ∃ av, l = av ++ r ∧ lowerChars av = pat := by
  induction pat generalizing l with
  | nil =>
    simp only [stripCI, Option.some.injEq] at h
    exact ⟨[], by simp [h], rfl⟩
  | cons p ps ih =>
    cases l with
    | nil => exact absurd h (by simp [stripCI])
    | cons c cs =>
      simp only [stripCI] at h
      split at h
      · obtain ⟨av, he, hlo⟩ := ih h
        rename_i hlow
        refine ⟨c :: av, by simp [he], ?_⟩
        simp only [lowerChars, List.map_cons] at hlo ⊢
        simp [hlow, hlo]
      · exact Option.noConfusion h

lemma matchParenAt_cons_paren (X : Chars) :
    matchParenAt ('(' :: X) =
      (if (X.takeWhile Char.isDigit).isEmpty then none
       else
         match stripCI ("available".data)
             ((X.dropWhile Char.isDigit).dropWhile isSpaceP) with
         | some (')' :: _) => some (natOfDigits (X.takeWhile Char.isDigit))
         | _ => none) := rfl

lemma matchParenAt_not_paren {c : Char} {t : Chars} (hc : c ≠ '(') :
    matchParenAt (c :: t) = none := by
  simp only [matchParenAt, if_neg hc]

lemma head_append_cases {a b : Chars} {c : Char}
    (h : (a ++ b).head? = some c) :
    a.head? = some c ∨ (a = [] ∧ b.head? = some c) := by
  cases a with
  | nil => exact Or.inr ⟨rfl, h⟩
  | cons x a' => exact Or.inl (by simpa using h)

/-- The declarative parenthesized-count decomposition coincides with the
executable anchored matcher. -/
lemma ParenCountAt_iff (t : Chars) (i n : Nat) :
    ParenCountAt t i n ↔ matchParenAt (t.drop i) = some n := by
  unfold ParenCountAt
  generalize t.drop i = l
  constructor
  · rintro ⟨ds, ws, av, rest, he, hne, hds, hws, hav, rfl⟩
    subst he
    have havne : av ≠ [] := by
      intro hav0
      rw [hav0] at hav
      exact absurd hav (by decide)
    obtain ⟨a0, av', rfl⟩ : ∃ a0 av', av = a0 :: av' := by
      cases av with
      | nil => exact absurd rfl havne
      | cons a0 av' => exact ⟨a0, av', rfl⟩
    have ha0 : a0.toLower = 'a' := by
      have h9 := hav
      rw [show ("available".data) = 'a' :: "vailable".data from rfl] at h9
      simp only [lowerChars, List.map_cons, List.cons.injEq] at h9
      exact h9.1
    have hheadd : ∀ c, (ws ++ (a0 :: av' ++ ')' :: rest)).head? = some c →
        c.isDigit = false := by
      intro c hc
      rcases head_append_cases hc with h1 | ⟨-, h2⟩
      · exact space_not_digit (hws c (mem_of_head? h1))
      · have hc2 : a0 = c := by simpa using h2
        subst hc2
        exact not_digit_of_toLower (by decide) ha0
    have hheads : ∀ c, ((a0 :: av') ++ ')' :: rest).head? = some c →
        isSpaceP c = false := by
      intro c hc
      have hc2 : a0 = c := by simpa using hc
      subst hc2
      exact not_space_of_toLower (by decide) ha0
    have hX : ds ++ ws ++ (a0 :: av') ++ ')' :: rest =
        ds ++ (ws ++ ((a0 :: av') ++ ')' :: rest)) := by
      simp [List.append_assoc]
    rw [hX, matchParenAt_cons_paren]
    have ht : (ds ++ (ws ++ ((a0 :: av') ++ ')' :: rest))).takeWhile
        Char.isDigit = ds := by
      rw [takeWhile_all_append _ _ _ hds,
        takeWhile_head_neg _ _ (by simpa using hheadd), List.append_nil]
    have hdrop : (ds ++ (ws ++ ((a0 :: av') ++ ')' :: rest))).dropWhile
        Char.isDigit = ws ++ ((a0 :: av') ++ ')' :: rest) := by
      rw [dropWhile_all_append _ _ _ hds]
      exact dropWhile_head_neg _ _ (by simpa using hheadd)
    have hdrop2 : (ws ++ ((a0 :: av') ++ ')' :: rest)).dropWhile isSpaceP =
        (a0 :: av') ++ ')' :: rest := by
      rw [dropWhile_all_append _ _ _ hws]
      exact dropWhile_head_neg _ _ hheads
    have hstrip : stripCI ("available".data)
        ((a0 :: av') ++ ')' :: rest) = some (')' :: rest) :=
      stripCI_append hav
    rw [ht, hdrop, hdrop2, hstrip]
    rw [if_neg (by simp [hne])]
    rfl
  · intro h
    cases l with
    | nil => exact absurd h (by simp [matchParenAt])
    | cons c X =>
      by_cases hc : c = '('
      · subst hc
        rw [matchParenAt_cons_paren] at h
        split at h
        · exact absurd h (by simp)
        · rename_i hne'
          split at h
          · rename_i rest' heq
            obtain ⟨av, he2, hlo⟩ := stripCI_some heq
            simp only [Option.some.injEq] at h
            refine ⟨X.takeWhile Char.isDigit,
              (X.dropWhile Char.isDigit).takeWhile isSpaceP, av, rest',
              ?_, ?_, ?_, ?_, hlo, h.symm⟩
            · simp only [List.cons.injEq, true_and]
              rw [List.append_assoc, List.append_assoc, ← he2,
                List.takeWhile_append_dropWhile,
                List.takeWhile_append_dropWhile]
            · intro he3
              rw [he3] at hne'
              exact hne' rfl
            · exact fun d hd => List.mem_takeWhile_imp hd
            · exact fun d hd => List.mem_takeWhile_imp hd
          · exact absurd h (by simp)
      · rw [matchParenAt_not_paren hc] at h
        exact Option.noConfusion h

/-- `re.search` semantics of the paren scanner: a result is the leftmost
anchored match. -/
lemma searchParen_eq_some_iff {t : Chars} {n : Nat} :
    searchParen t = some n ↔
    ∃ i, matchParenAt (t.drop i) = some n ∧
      ∀ j, j < i → matchParenAt (t.drop j) = none := by
  induction t with
  | nil =>
    simp only [searchParen]
    constructor
    · intro h
      exact Option.noConfusion h
    · rintro ⟨i, hi, -⟩
      rw [List.drop_nil] at hi
      exact absurd hi (by simp [matchParenAt])
  | cons c t' ih =>
    constructor
    · intro h
      simp only [searchParen] at h
      cases hm : matchParenAt (c :: t') with
      | some m =>
        rw [hm] at h
        simp only [Option.some.injEq] at h
        subst h
        exact ⟨0, hm, fun j hj => absurd hj (Nat.not_lt_zero j)⟩
      | none =>
        rw [hm] at h
        obtain ⟨i, hi, hmin⟩ := ih.mp h
        refine ⟨i + 1, by simpa using hi, ?_⟩
        intro j hj
        cases j with
        | zero => exact hm
        | succ j' =>
          rw [List.drop_succ_cons]
          exact hmin j' (by omega)
    · rintro ⟨i, hi, hmin⟩
      simp only [searchParen]
      cases hm : matchParenAt (c :: t') with
      | some m =>
        cases i with
        | zero =>
          rw [List.drop_zero] at hi
          rw [hm] at hi
          exact hi
        | succ i' =>
          have h0 := hmin 0 (by omega)
          rw [List.drop_zero] at h0
          rw [h0] at hm
          exact Option.noConfusion hm
      | none =>
        apply ih.mpr
        cases i with
        | zero =>
          rw [List.drop_zero] at hi
          rw [hm] at hi
          exact Option.noConfusion hi
        | succ i' =>
          rw [List.drop_succ_cons] at hi
          refine ⟨i', hi, ?_⟩
          intro j hj
          have := hmin (j + 1) (by omega)
          rwa [List.drop_succ_cons] at this

lemma searchParen_eq_none_iff {t : Chars} :
    searchParen t = none ↔ ∀ i, matchParenAt (t.drop i) = none := by
  induction t with
  | nil =>
    simp only [searchParen, List.drop_nil]
    constructor
    · intro _ i
      simp [matchParenAt]
    · intro _
      trivial
  | cons c t' ih =>
    constructor
    · intro h i
      simp only [searchParen] at h
      cases hm : matchParenAt (c :: t') with
      | some m => rw [hm] at h; exact Option.noConfusion h
      | none =>
        rw [hm] at h
        cases i with
        | zero => simpa using hm
        | succ i' =>
          rw [List.drop_succ_cons]
          exact ih.mp h i'
    · intro h
      simp only [searchParen]
      have h0 := h 0
      rw [List.drop_zero] at h0
      rw [h0]
      apply ih.mpr
      intro i
      have := h (i + 1)
      rwa [List.drop_succ_cons] at this

/-- The digit scanner finds the first maximal digit run. -/
lemma searchDigits_spec (pre ds rest : Chars)
    (hpre : ∀ c ∈ pre, c.isDigit = false)
    (hds : ∀ c ∈ ds, c.isDigit = true) (hne : ds ≠ [])
    (hrest : ∀ c, rest.head? = some c → c.isDigit = false) :
    searchDigits (pre ++ ds ++ rest) = some (natOfDigits ds) := by
  induction pre with
  | nil =>
    cases ds with
    | nil => exact absurd rfl hne
    | cons d ds' =>
      have hd : d.isDigit = true := hds d (List.mem_cons_self _ _)
      simp only [List.nil_append, List.cons_append, searchDigits, hd,
        if_pos]
      have ht : ((d :: ds') ++ rest).takeWhile Char.isDigit = d :: ds' := by
        rw [takeWhile_all_append _ _ _ hds, takeWhile_head_neg _ _ hrest,
          List.append_nil]
      simpa using congrArg (fun l => some (natOfDigits l)) ht
  | cons p pre' ih =>
    have hp : p.isDigit = false := hpre p (List.mem_cons_self _ _)
    simp only [List.cons_append, searchDigits, hp]
    simp only [Bool.false_eq_true, if_false]
    exact ih (fun c hc => hpre c (List.mem_cons_of_mem _ hc))

lemma searchDigits_none {t : Chars} (h : ∀ c ∈ t, c.isDigit = false) :
    searchDigits t = none := by
  induction t with
  | nil => rfl
  | cons c t' ih =>
    have hc : c.isDigit = false := h c (List.mem_cons_self _ _)
    simp only [searchDigits, hc, Bool.false_eq_true, if_false]
    exact ih (fun d hd => h d (List.mem_cons_of_mem _ hd))

/-- Substring search agrees with the declarative "a prefix at some
offset" reading. -/
lemma containsSub_iff {hay needle : Chars} :
    containsSub hay needle = true ↔
    ∃ i, needle.isPrefixOf (hay.drop i) = true := by
  induction hay with
  | nil =>
    simp only [containsSub, List.drop_nil]
    cases needle with
    | nil => simp [List.isPrefixOf]
    | cons c t => simp [List.isPrefixOf]
  | cons c t' ih =>
    simp only [containsSub, Bool.or_eq_true]
    constructor
    · rintro (h | h)
      · exact ⟨0, by simpa using h⟩
      · obtain ⟨i, hi⟩ := ih.mp h
        exact ⟨i + 1, by simpa using hi⟩
    · rintro ⟨i, hi⟩
      cases i with
      | zero => exact Or.inl (by simpa using hi)
      | succ i' =>
        rw [List.drop_succ_cons] at hi
        exact Or.inr (ih.mpr ⟨i', hi⟩)

/-- Claim C1: `parse_availability_text` follows the ordered fallback
exactly. If the (stripped) text contains a parenthesized count
`(N available)` — at its leftmost occurrence — the result is
`(True, N)`; otherwise, if the text contains a digit run, the result is
`(inStock, first run)` with `inStock` the case-insensitive presence of
`in stock`; otherwise `(inStock, None)`. -/
theorem parse_availability_text_ordered_fallback (text : Chars) :
    (∀ i n, ParenCountAt (pyStrip text) i n →
      (∀ j m, ParenCountAt (pyStrip text) j m → i ≤ j) →
      parse_availability_text text = (true, some n)) ∧
    ((∀ i n, ¬ ParenCountAt (pyStrip text) i n) →
      ∀ pre ds rest, pyStrip text = pre ++ ds ++ rest →
        (∀ c ∈ pre, c.isDigit = false) → ds ≠ [] →
        (∀ c ∈ ds, c.isDigit = true) →
        (∀ c, rest.head? = some c → c.isDigit = false) →
        (parse_availability_text text).2 = some (natOfDigits ds) ∧
        ((parse_availability_text text).1 = true ↔
          InStockCI (pyStrip text))) ∧
    ((∀ c ∈ pyStrip text, c.isDigit = false) →
      (parse_availability_text text).2 = none ∧
      ((parse_availability_text text).1 = true ↔
        InStockCI (pyStrip text))) := by
  refine ⟨?_, ?_, ?_⟩
  · intro i n hp hmin
    have hm := (ParenCountAt_iff _ _ _).mp hp
    have hsp : searchParen (pyStrip text) = some n := by
      apply searchParen_eq_some_iff.mpr
      refine ⟨i, hm, ?_⟩
      intro j hj
      cases hmj : matchParenAt ((pyStrip text).drop j) with
      | none => rfl
      | some m =>
        have := hmin j m ((ParenCountAt_iff _ _ _).mpr hmj)
        omega
    simp only [parse_availability_text, hsp]
  · intro hnone pre ds rest he hpre hne hds hrest
    have hsp : searchParen (pyStrip text) = none := by
      apply searchParen_eq_none_iff.mpr
      intro i
      cases hmi : matchParenAt ((pyStrip text).drop i) with
      | none => rfl
      | some m => exact absurd ((ParenCountAt_iff _ _ _).mpr hmi) (hnone i m)
    have hsd : searchDigits (pyStrip text) = some (natOfDigits ds) := by
      rw [he]
      exact searchDigits_spec pre ds rest hpre hds hne hrest
    constructor
    · simp only [parse_availability_text, hsp, hsd]
    · simp only [parse_availability_text, hsp, hsd]
      unfold InStockCI
      exact containsSub_iff
  · intro hall
    have hsp : searchParen (pyStrip text) = none := by
      apply searchParen_eq_none_iff.mpr
      intro i
      cases hmi : matchParenAt ((pyStrip text).drop i) with
      | none => rfl
      | some m =>
        have hp := (ParenCountAt_iff _ _ _).mpr hmi
        unfold ParenCountAt at hp
        obtain ⟨ds, ws, av, rest, he, hne, hds, -, -, -⟩ := hp
        obtain ⟨d, ds', rfl⟩ : ∃ d ds', ds = d :: ds' := by
          cases ds with
          | nil => exact absurd rfl hne
          | cons d ds' => exact ⟨d, ds', rfl⟩
        have hdmem : d ∈ (pyStrip text).drop i := by
          rw [he]
          simp
        have h1 := hds d (List.mem_cons_self _ _)
        have h2 := hall d (List.mem_of_mem_drop hdmem)
        rw [h1] at h2
        exact Bool.noConfusion h2
    have hsd : searchDigits (pyStrip text) = none := searchDigits_none hall
    constructor
    · simp only [parse_availability_text, hsp, hsd]
    · simp only [parse_availability_text, hsp, hsd]
      unfold InStockCI
      exact containsSub_iff

/-- Witness for C1 at the concrete site text `"In stock (22 available)"`:
the parenthesized count wins and the parse yields `(True, 22)`. -/
theorem parse_availability_text_ordered_fallback_witness :
    parse_availability_text ("In stock (22 available)".data) =
      (true, some 22) := by
  refine (parse_availability_text_ordered_fallback
    ("In stock (22 available)".data)).1 9 22 ?_ ?_
  · exact ⟨['2', '2'], [' '], "available".data, [], by decide, by decide,
      by decide, by decide, by decide, by decide⟩
  · intro j m hjm
    rw [ParenCountAt_iff] at hjm
    by_contra hlt
    push_neg at hlt
    have hnone : matchParenAt
        ((pyStrip ("In stock (22 available)".data)).drop j) = none := by
      interval_cases j <;> decide
    rw [hnone] at hjm
    exact Option.noConfusion hjm

end BookScraper
